import Mathlib

/-!
# Calculate: the series and Monte Carlo estimators of pi and their parallel backends

A shallow embedding of `Calculate/Calculate.cpp` (the alternating series, split over
worker threads by five backends) and of `Calculate/Calculate/Calculate.cpp` (the Monte
Carlo point count, split over worker threads).

Conventions of the embedding.

* `uint64_t` and `size_t` (64 bits) are natural numbers; every operation that can wrap is
  written with an explicit `% 2 ^ 64`.
* `int` is an integer; the Monte Carlo theorems show that the values stay far below `2 ^ 31`.
* `double` is a rational number. A `double` operation is the exact rational operation
  followed by a rounding function `rnd : ℚ → ℚ`; `rnd = binary64` is the arithmetic of the
  program, `rnd = exactDouble` (the identity) is exact arithmetic.
* A call returns an `Outcome`: a value, or the reason why there is none.
* With `numThreads = 0` the division `iterations / numThreads` is undefined behaviour.
  The language fixes no outcome for it, so every backend takes the outcome of that case as
  a parameter `ub`, about which nothing is assumed.
-/

namespace Calculate

/-! ## Arithmetic model -/

/-- Exact arithmetic: the rounding function that rounds nothing. -/
def exactDouble : ℚ → ℚ := fun x => x

/-- Rounding to the nearest integer, a tie to the even one. -/
def roundHalfEven (y : ℚ) : Int :=
  if y - Int.floor y < 1 / 2 then Int.floor y
  else if 1 / 2 < y - Int.floor y then Int.floor y + 1
  else if Int.floor y % 2 = 0 then Int.floor y
  else Int.floor y + 1

/-- The rounding of IEEE 754 binary64, the format of `double`: to the nearest number with a
53-bit significand, a tie to the even significand. For `2 ^ e ≤ |x| < 2 ^ (e + 1)` the
spacing of these numbers is `2 ^ (e - 52)`. The exponent is not bounded: the definition is
the format's rounding for `2 ^ (-1022) ≤ |x| < 2 ^ 1024` and for 0. -/
def binary64 (x : ℚ) : ℚ :=
  if x = 0 then 0
  else (roundHalfEven (x / 2 ^ (Int.log 2 |x| - 52)) : ℚ) * 2 ^ (Int.log 2 |x| - 52)

/-- The result of running a backend. -/
inductive Outcome where
  /-- The call returned this number. -/
  | value (x : ℚ)
  /-- An exception left the call; it was rethrown by `future::get` while the caller
  collected the result of this partition. -/
  | raised (partition : Nat)
  /-- An exception left the function of a worker thread: `std::terminate` ends the run. -/
  | terminated
  deriving DecidableEq, Repr

/-- The outcome is a returned number. -/
def Outcome.isValue : Outcome → Bool
  | .value _ => true
  | _ => false

/-! ## The series workload: `CalculatePi` -/

/-- The loop `for (uint64_t i = start; i < end; i++)` of `CalculatePi`, from the state
`(i, sum)`. `end_` is a `uint64_t`, hence read modulo `2 ^ 64`. -/
def CalculatePi.loop (rnd : ℚ → ℚ) (end_ : Nat) (i : Nat) (sum : ℚ) : ℚ :=
  if i < end_ % 2 ^ 64 then
    let sign : Int := if i % 2 ≠ 0 then -1 else 1
    let term : ℚ := rnd (((2 * i + 1) % 2 ^ 64 : Nat) : ℚ)
    CalculatePi.loop rnd end_ ((i + 1) % 2 ^ 64) (rnd (sum + rnd ((sign : ℚ) / term)))
  else sum
termination_by end_ % 2 ^ 64 - i
decreasing_by
  rename_i h
  have h3 : (i + 1) % 2 ^ 64 = i + 1 := Nat.mod_eq_of_lt (by omega)
  omega

/-- `double CalculatePi(uint64_t const start, uint64_t const end)`. -/
def CalculatePi (rnd : ℚ → ℚ) (start end_ : Nat) : ℚ :=
  rnd (4 * CalculatePi.loop rnd end_ (start % 2 ^ 64) 0)

/-- The summand of iteration `i` as the loop computes it in exact arithmetic: the sign
over `2 * i + 1` taken in 64 bits. -/
def seriesTerm (i : Nat) : ℚ :=
  (((if i % 2 ≠ 0 then -1 else 1 : Int)) : ℚ) / (((2 * i + 1) % 2 ^ 64 : Nat) : ℚ)

/-! ## Partition -/

/-- The two arguments `i * chunk` and `(i + 1) * chunk` that worker `i` passes to
`CalculatePi`, computed in 64-bit unsigned arithmetic. -/
def workerRange (chunk i : Nat) : Nat × Nat :=
  ((i * chunk) % 2 ^ 64, (((i + 1) % 2 ^ 64) * chunk) % 2 ^ 64)

/-- The ranges of all workers, in worker order, for `chunk = iterations / numThreads`. -/
def workerRanges (iterations numThreads : Nat) : List (Nat × Nat) :=
  (List.range numThreads).map (workerRange (iterations / numThreads))

/-- The body of every worker: `CalculatePi(i * chunk, (i + 1) * chunk)`. -/
def workerResult (rnd : ℚ → ℚ) (chunk i : Nat) : ℚ :=
  CalculatePi rnd (workerRange chunk i).1 (workerRange chunk i).2

/-! ## Aggregation: `std::sort` descending, then `std::accumulate` -/

/-- `std::sort(first, last, std::greater<>())`: the values in descending order. The
library only promises a sorted rearrangement; insertion sort is one. -/
def sortDescending {α : Type} [LinearOrder α] (sums : List α) : List α :=
  sums.insertionSort (fun a b => b ≤ a)

/-- `std::accumulate(first, last, init)` with the addition `add`: a left fold. -/
def accumulate {α : Type} (add : α → α → α) (init : α) (sums : List α) : α :=
  sums.foldl add init

/-- The last two statements of the thread, future/promise and async backends. -/
def aggregate {α : Type} [LinearOrder α] (add : α → α → α) (zero : α) (sums : List α) : α :=
  accumulate add zero (sortDescending sums)

/-- Addition of two doubles. -/
def addDouble (rnd : ℚ → ℚ) (a b : ℚ) : ℚ := rnd (a + b)

/-! ## The backends with explicit collection -/

/-- `CalculatePiMultithreaded`: worker `i` writes slot `i` of `sums`; all workers are
joined; the slots are sorted and summed. With `numThreads = 0` the behaviour of
`iterations / numThreads` is undefined: the outcome is the unknown `ub`, here and in the
other backends. -/
def CalculatePiMultithreaded (ub : Outcome) (rnd : ℚ → ℚ) (iterations numThreads : Nat) :
    Outcome :=
  if numThreads = 0 then ub
  else
    let chunk := iterations / numThreads
    let sums := (List.range numThreads).foldl
      (fun (sums : List ℚ) i => sums.set i (workerResult rnd chunk i))
      (List.replicate numThreads 0)
    .value (aggregate (addDouble rnd) 0 sums)

/-- `CalculatePiMultithreadedWithFutureAndPromises`: worker `i` publishes its result in
promise `i`; the caller pushes the value of future `i` for `i = 0, 1, ...`. -/
def CalculatePiMultithreadedWithFutureAndPromises (ub : Outcome) (rnd : ℚ → ℚ)
    (iterations numThreads : Nat) : Outcome :=
  if numThreads = 0 then ub
  else
    let chunk := iterations / numThreads
    let promises := (List.range numThreads).map (workerResult rnd chunk)
    let sums := (List.range numThreads).foldl
      (fun (sums : List ℚ) i => sums ++ [promises.getD i 0]) []
    .value (aggregate (addDouble rnd) 0 sums)

/-- `CalculatePiMultithreadedWithAsync`: one task per worker; the caller pushes the value
of every future in order. -/
def CalculatePiMultithreadedWithAsync (ub : Outcome) (rnd : ℚ → ℚ)
    (iterations numThreads : Nat) : Outcome :=
  if numThreads = 0 then ub
  else
    let chunk := iterations / numThreads
    let futures := (List.range numThreads).map (workerResult rnd chunk)
    let sums := futures.foldl (fun (sums : List ℚ) future => sums ++ [future]) []
    .value (aggregate (addDouble rnd) 0 sums)

/-! ## The backends with `std::transform_reduce` -/

/-- The execution policies of `<execution>`. -/
inductive ExecutionPolicy where
  | seq
  | par
  | par_unseq
  | unseq
  deriving DecidableEq, Repr

/-- The order in which a reduction combines its operands: operand `0` is the initial
value, operand `k + 1` is element `k` of the range. -/
inductive ReducePlan where
  | operand (k : Nat)
  | combine (l r : ReducePlan)
  deriving DecidableEq, Repr

/-- The operands of a plan, left to right. -/
def ReducePlan.operands : ReducePlan → List Nat
  | .operand k => [k]
  | .combine l r => l.operands ++ r.operands

/-- The value of a plan for the operands `xs` and the addition `add`. -/
def ReducePlan.eval (add : ℚ → ℚ → ℚ) (xs : List ℚ) : ReducePlan → ℚ
  | .operand k => xs.getD k 0
  | .combine l r => add (l.eval add xs) (r.eval add xs)

/-- A plan for `n` operands uses each of them exactly once (the generalized sum of the
C++ standard: any grouping of any rearrangement). -/
def ReducePlan.Valid (n : Nat) (p : ReducePlan) : Prop :=
  p.operands.Perm (List.range n)

instance (n : Nat) (p : ReducePlan) : Decidable (p.Valid n) :=
  inferInstanceAs (Decidable (List.Perm _ _))

/-- The plan `((init + x₀) + x₁) + ... + xₙ₋₁` for a range of `n` elements. -/
def ReducePlan.leftToRight : Nat → ReducePlan
  | 0 => .operand 0
  | n + 1 => .combine (ReducePlan.leftToRight n) (.operand (n + 1))

/-- What the standard library does with a policy and a range of a given length. -/
abbrev Scheduler := ExecutionPolicy → Nat → ReducePlan

/-- The scheduler that reduces left to right whatever the policy. -/
def inOrder : Scheduler := fun _ n => ReducePlan.leftToRight n

/-- `std::transform_reduce(policy, first, last, init, std::plus<>(), f)` on the values
`xs` that `f` yields. -/
def transform_reduce (sched : Scheduler) (policy : ExecutionPolicy) (add : ℚ → ℚ → ℚ)
    (init : ℚ) (xs : List ℚ) : ℚ :=
  (sched policy xs.length).eval add (init :: xs)

/-- `CalculatePiMultithreadedWithPolicy`: one task per element of `threadIndices`
(`std::iota` from 0), reduced under `policy`. -/
def CalculatePiMultithreadedWithPolicy (ub : Outcome) (sched : Scheduler) (rnd : ℚ → ℚ)
    (iterations numThreads : Nat) (policy : ExecutionPolicy) : Outcome :=
  if numThreads = 0 then ub
  else
    let chunk := iterations / numThreads
    let threadIndices := List.range numThreads
    let futures := threadIndices.map (fun threadIdx => workerResult rnd chunk threadIdx)
    .value (transform_reduce sched policy (addDouble rnd) 0 futures)

/-- `CalculatePiMultithreadedWithSTL`: the same with the policy `std::execution::par`. -/
def CalculatePiMultithreadedWithSTL (ub : Outcome) (sched : Scheduler) (rnd : ℚ → ℚ)
    (iterations numThreads : Nat) : Outcome :=
  if numThreads = 0 then ub
  else
    let chunk := iterations / numThreads
    let threadIndices := List.range numThreads
    let futures := threadIndices.map (fun threadIdx => workerResult rnd chunk threadIdx)
    .value (transform_reduce sched .par (addDouble rnd) 0 futures)

/-! ## The future and task backends with an instrumented workload

The backends call `CalculatePi`, which cannot raise. To state what they do with a
workload that raises, the two definitions below repeat them with the workload as a
parameter; at the series workload they are the backends above. -/

/-- A workload that may raise: `none` is a raised exception. -/
abbrev Workload := Nat → Nat → Option ℚ

/-- The workload of the program. -/
def seriesWorkload (rnd : ℚ → ℚ) : Workload :=
  fun start end_ => some (CalculatePi rnd start end_)

/-- What worker `i` produces: a value, or an exception. -/
def workerAttempt (work : Workload) (chunk i : Nat) : Option ℚ :=
  work (workerRange chunk i).1 (workerRange chunk i).2

/-- The collection loop `sums.push_back(future.get())` from future number `i` on:
`get` rethrows the exception a future holds, which ends the loop and the call. -/
def collect : List (Option ℚ) → Nat → List ℚ → Except Nat (List ℚ)
  | [], _, sums => .ok sums
  | none :: _, i, _ => .error i
  | some x :: rest, i, sums => collect rest (i + 1) (sums ++ [x])

/-- `CalculatePiMultithreadedWithFutureAndPromises` for the workload `work`. The thread
function is `result = work(...); promises[i].set_value(result);` with no handler, so an
exception of `work` leaves the thread function. -/
def futureAndPromisesInstrumented (ub : Outcome) (work : Workload) (rnd : ℚ → ℚ)
    (iterations numThreads : Nat) : Outcome :=
  if numThreads = 0 then ub
  else
    let chunk := iterations / numThreads
    let published := (List.range numThreads).map (workerAttempt work chunk)
    if published.any Option.isNone then .terminated
    else
      match collect published 0 [] with
      | .ok sums => .value (aggregate (addDouble rnd) 0 sums)
      | .error i => .raised i

/-- `CalculatePiMultithreadedWithAsync` for the workload `work`. `std::async` stores an
exception of the task in its future. -/
def asyncInstrumented (ub : Outcome) (work : Workload) (rnd : ℚ → ℚ)
    (iterations numThreads : Nat) : Outcome :=
  if numThreads = 0 then ub
  else
    let chunk := iterations / numThreads
    let futures := (List.range numThreads).map (workerAttempt work chunk)
    match collect futures 0 [] with
    | .ok sums => .value (aggregate (addDouble rnd) 0 sums)
    | .error i => .raised i

end Calculate

/-! ## The Monte Carlo program -/

namespace MonteCarlo

/-- `struct vector2f`, with `float` read as a rational number. -/
structure vector2f where
  x : ℚ
  y : ℚ

/-- The global counters `in` and `total`. -/
structure Globals where
  in_ : Int
  total : Int
  deriving DecidableEq, Repr

/-- `countPoints(number, local_in, local_total)`; `draw k` is the point that call number
`k` of `getRandomPoint` returns. The result is `(local_in, local_total)`. -/
def countPoints (draw : Nat → vector2f) (number : Int) : Int × Int :=
  let local_in := (List.range number.toNat).foldl
    (fun (local_in : Int) i =>
      let point := draw i
      if point.x * point.x + point.y * point.y < 1 then local_in + 1 else local_in) 0
  (local_in, number)

/-- `singleThreadedExecution`: `countPoints(100000000, in, total)`. -/
def singleThreadedExecution (draw : Nat → vector2f) (_g : Globals) : Globals :=
  let r := countPoints draw 100000000
  { in_ := r.1, total := r.2 }

/-- `multiThreadedExecution`; `num_threads` is `std::thread::hardware_concurrency()`
converted to `int`, `draws i` are the points worker `i` draws. There is no result when
`num_threads` is zero (division by zero) or negative (the vectors cannot be created). -/
def multiThreadedExecution (draws : Nat → Nat → vector2f) (num_threads : Int) (g : Globals) :
    Option Globals :=
  if num_threads ≤ 0 then none
  else
    let per_thread : Int := Int.tdiv 100000000 num_threads
    let results := (List.range num_threads.toNat).map (fun i => countPoints (draws i) per_thread)
    let local_ins := results.map Prod.fst
    let local_totals := results.map Prod.snd
    some ((List.range num_threads.toNat).foldl
      (fun (g : Globals) i =>
        { in_ := g.in_ + local_ins.getD i 0, total := g.total + local_totals.getD i 0 }) g)

/-- The two calls of `main`, from the initial counters `in = 0`, `total = 0`. -/
def main (draw : Nat → vector2f) (draws : Nat → Nat → vector2f) (num_threads : Int) :
    Option Globals :=
  multiThreadedExecution draws num_threads (singleThreadedExecution draw { in_ := 0, total := 0 })

end MonteCarlo

/-! # Theorems -/

namespace Calculate

/-! ## The series workload -/

theorem exactDouble_apply (x : ℚ) : exactDouble x = x := rfl

/-- One step of the loop of `CalculatePi`. -/
theorem loop_step (rnd : ℚ → ℚ) (end_ i : Nat) (sum : ℚ) :
    CalculatePi.loop rnd end_ i sum =
      if i < end_ % 2 ^ 64 then
        CalculatePi.loop rnd end_ ((i + 1) % 2 ^ 64)
          (rnd (sum + rnd ((((if i % 2 ≠ 0 then -1 else 1 : Int)) : ℚ) /
            rnd (((2 * i + 1) % 2 ^ 64 : Nat) : ℚ))))
      else sum := by
  rw [CalculatePi.loop]

/-- The loop does nothing once `i` has reached the end. -/
theorem loop_done (rnd : ℚ → ℚ) (end_ i : Nat) (sum : ℚ) (h : end_ % 2 ^ 64 ≤ i) :
    CalculatePi.loop rnd end_ i sum = sum := by
  rw [loop_step, if_neg (by omega)]

/-- In exact arithmetic the loop adds the terms of the remaining indices. -/
theorem loop_exact (end_ : Nat) (hend : end_ < 2 ^ 64) :
    ∀ (n i : Nat) (sum : ℚ), end_ - i = n →
      CalculatePi.loop exactDouble end_ i sum = sum + ∑ j in Finset.Ico i end_, seriesTerm j := by
  intro n
  induction n with
  | zero =>
    intro i sum h
    have hle : end_ ≤ i := by omega
    rw [loop_done _ _ _ _ (by rw [Nat.mod_eq_of_lt hend]; exact hle), Finset.Ico_eq_empty (by omega)]
    simp
  | succ n ih =>
    intro i sum h
    have hlt : i < end_ := by omega
    rw [loop_step, if_pos (by rw [Nat.mod_eq_of_lt hend]; exact hlt),
      Nat.mod_eq_of_lt (show i + 1 < 2 ^ 64 by omega), ih (i + 1) _ (by omega),
      Finset.sum_eq_sum_Ico_succ_bot hlt]
    simp only [exactDouble_apply, seriesTerm]
    ring

/-- In exact arithmetic `CalculatePi` is four times the sum of its terms. -/
theorem CalculatePi_exact (start end_ : Nat) (hstart : start < 2 ^ 64) (hend : end_ < 2 ^ 64) :
    CalculatePi exactDouble start end_ = 4 * ∑ j in Finset.Ico start end_, seriesTerm j := by
  rw [CalculatePi, Nat.mod_eq_of_lt hstart, loop_exact end_ hend _ start 0 rfl]
  simp [exactDouble_apply]

/-- Below `2 ^ 63` the term of the code is the term of the series. -/
theorem seriesTerm_eq (i : Nat) (h : i < 2 ^ 63) :
    seriesTerm i = (if i % 2 = 1 then (-1 : ℚ) else 1) / (2 * (i : ℚ) + 1) := by
  rw [seriesTerm, Nat.mod_eq_of_lt (show 2 * i + 1 < 2 ^ 64 by omega)]
  rcases Nat.mod_two_eq_zero_or_one i with h0 | h1
  · simp [h0]
  · simp [h1]

/-- C3. For `start ≤ end ≤ 2 ^ 63` the total function `CalculatePi`, in exact arithmetic,
returns `4 * Σ_{start ≤ i < end} sign(i) / (2 i + 1)` with `sign(i) = -1` for odd `i` and
`+1` for even `i`; for `start ≥ end` (64-bit values) it returns 0. -/
theorem CalculatePi_series (start end_ : Nat) :
    (start ≤ end_ → end_ ≤ 2 ^ 63 →
      CalculatePi exactDouble start end_ =
        4 * ∑ i in Finset.Ico start end_,
          (if i % 2 = 1 then (-1 : ℚ) else 1) / (2 * (i : ℚ) + 1)) ∧
    (end_ ≤ start → start < 2 ^ 64 → CalculatePi exactDouble start end_ = 0) := by
  constructor
  · intro h1 h2
    rw [CalculatePi_exact start end_ (by omega) (by omega)]
    congr 1
    apply Finset.sum_congr rfl
    intro i hi
    rw [Finset.mem_Ico] at hi
    exact seriesTerm_eq i (by omega)
  · intro h1 h2
    rw [CalculatePi_exact start end_ h2 (by omega), Finset.Ico_eq_empty (by omega)]
    simp

/-- C3 at `(0, 3)`, where the sum is `1 - 1/3 + 1/5`, and at `(5, 2)`. -/
theorem CalculatePi_series_witness :
    (0 ≤ 3 ∧ 3 ≤ 2 ^ 63 ∧ CalculatePi exactDouble 0 3 = 4 * (1 - 1 / 3 + 1 / 5)) ∧
    (2 ≤ 5 ∧ 5 < 2 ^ 64 ∧ CalculatePi exactDouble 5 2 = 0) := by
  refine ⟨⟨by decide, by norm_num, ?_⟩, ⟨by decide, by norm_num, ?_⟩⟩
  · rw [(CalculatePi_series 0 3).1 (by decide) (by norm_num)]
    simp [Finset.sum_Ico_eq_sum_range, Finset.sum_range_succ]
    norm_num
  · exact (CalculatePi_series 5 2).2 (by decide) (by norm_num)


/-- Exact results over adjacent ranges add up. -/
theorem CalculatePi_add (a b c : Nat) (hab : a ≤ b) (hbc : b ≤ c) (hc : c < 2 ^ 64) :
    CalculatePi exactDouble a b + CalculatePi exactDouble b c = CalculatePi exactDouble a c := by
  rw [CalculatePi_exact a b (by omega) (by omega), CalculatePi_exact b c (by omega) hc,
    CalculatePi_exact a c (by omega) hc, ← mul_add, Finset.sum_Ico_consecutive _ hab hbc]

/-- A chain of well-formed adjacent ranges ends no earlier than it starts. -/
theorem chain_first_le_last (rest : List (Nat × Nat)) :
    ∀ r : Nat × Nat, List.Chain' (fun r s : Nat × Nat => r.2 = s.1) (r :: rest) →
      (∀ s ∈ r :: rest, s.1 ≤ s.2) →
      r.1 ≤ ((r :: rest).getLast (List.cons_ne_nil _ _)).2 := by
  induction rest with
  | nil => intro r _ hall; simpa using hall r (List.mem_cons_self _ _)
  | cons s rest ih =>
    intro r hchain hall
    rw [List.chain'_cons] at hchain
    have hr := hall r (List.mem_cons_self _ _)
    have hs := ih s hchain.2 (fun t ht => hall t (List.mem_cons_of_mem _ ht))
    rw [List.getLast_cons_cons]
    omega

/-- Exact results over a chain of adjacent ranges add up to the result over the whole. -/
theorem CalculatePi_chain (rest : List (Nat × Nat)) :
    ∀ r : Nat × Nat, List.Chain' (fun r s : Nat × Nat => r.2 = s.1) (r :: rest) →
      (∀ s ∈ r :: rest, s.1 ≤ s.2 ∧ s.2 < 2 ^ 64) →
      ((r :: rest).map (fun s => CalculatePi exactDouble s.1 s.2)).sum =
        CalculatePi exactDouble r.1 ((r :: rest).getLast (List.cons_ne_nil _ _)).2 := by
  induction rest with
  | nil => intro r _ _; simp
  | cons s rest ih =>
    intro r hchain hall
    have hr := hall r (List.mem_cons_self _ _)
    rw [List.chain'_cons] at hchain
    have hall2 : ∀ t ∈ s :: rest, t.1 ≤ t.2 ∧ t.2 < 2 ^ 64 :=
      fun t ht => hall t (List.mem_cons_of_mem _ ht)
    have hrest := ih s hchain.2 hall2
    have hl := hall2 _ (List.getLast_mem (List.cons_ne_nil s rest))
    have hmono := chain_first_le_last rest s hchain.2 (fun t ht => (hall2 t ht).1)
    rw [List.map_cons, List.sum_cons, hrest, List.getLast_cons_cons, ← hchain.1]
    exact CalculatePi_add _ _ _ hr.1 (hchain.1 ▸ hmono) hl.2

/-- C4. In exact arithmetic `CalculatePi(a, b) + CalculatePi(b, c) = CalculatePi(a, c)` for
64-bit `a ≤ b ≤ c`, and the results over a list of ranges, each ending where the next
starts, sum to `CalculatePi` over the concatenated range; every result carries its own
factor 4. -/
theorem CalculatePi_additive :
    (∀ a b c : Nat, a ≤ b → b ≤ c → c < 2 ^ 64 →
      CalculatePi exactDouble a b + CalculatePi exactDouble b c = CalculatePi exactDouble a c) ∧
    (∀ (r : Nat × Nat) (rest : List (Nat × Nat)),
      List.Chain' (fun r s : Nat × Nat => r.2 = s.1) (r :: rest) →
      (∀ s ∈ r :: rest, s.1 ≤ s.2 ∧ s.2 < 2 ^ 64) →
      ((r :: rest).map (fun s => CalculatePi exactDouble s.1 s.2)).sum =
        CalculatePi exactDouble r.1 ((r :: rest).getLast (List.cons_ne_nil _ _)).2) :=
  ⟨CalculatePi_add, fun r rest => CalculatePi_chain rest r⟩

/-- C4 at `[0, 2), [2, 5)` and at the ranges `[1, 3), [3, 3), [3, 7)`. -/
theorem CalculatePi_additive_witness :
    CalculatePi exactDouble 0 2 + CalculatePi exactDouble 2 5 = CalculatePi exactDouble 0 5 ∧
    CalculatePi exactDouble 1 3 + (CalculatePi exactDouble 3 3 + (CalculatePi exactDouble 3 7 + 0))
      = CalculatePi exactDouble 1 7 :=
  ⟨CalculatePi_additive.1 0 2 5 (by decide) (by decide) (by norm_num),
   CalculatePi_additive.2 (1, 3) [(3, 3), (3, 7)] (by simp) (by
    intro s hs
    simp only [List.mem_cons, List.mem_singleton, List.not_mem_nil, or_false] at hs
    rcases hs with rfl | rfl | rfl <;> norm_num)⟩


/-! ## Partition -/

/-- Without wrap-around the range of worker `i` is `[i * chunk, (i + 1) * chunk)`. -/
theorem workerRange_eq (chunk i : Nat) (h : (i + 1) * chunk < 2 ^ 64) :
    workerRange chunk i = (i * chunk, (i + 1) * chunk) := by
  have h1 : i * chunk ≤ (i + 1) * chunk := Nat.mul_le_mul_right _ (Nat.le_succ i)
  have h2 : i + 1 < 2 ^ 64 ∨ chunk = 0 := by
    rcases Nat.eq_zero_or_pos chunk with h0 | hpos
    · exact Or.inr h0
    · exact Or.inl (lt_of_le_of_lt (Nat.le_mul_of_pos_right _ hpos) h)
  rcases h2 with h2 | h2
  · rw [workerRange, Nat.mod_eq_of_lt h2, Nat.mod_eq_of_lt h, Nat.mod_eq_of_lt (by omega)]
  · subst h2; simp [workerRange]

/-- When `numThreads ≤ iterations` fit in 64 bits, no worker's range wraps. -/
theorem worker_no_wrap (N W i : Nat) (hN : N < 2 ^ 64) (hi : i < W) :
    (i + 1) * (N / W) ≤ N ∧ (i + 1) * (N / W) < 2 ^ 64 := by
  have h1 : (i + 1) * (N / W) ≤ W * (N / W) := Nat.mul_le_mul_right _ hi
  have h2 : W * (N / W) ≤ N := Nat.mul_div_le N W
  omega

/-- C1. For 64-bit `N` and `1 ≤ W ≤ N` (so `N > 0`), with `chunk = N / W`: the backends hand worker
`i < W` the range `[i * chunk, (i + 1) * chunk)`, computed without wrap-around; every range
is non-empty; the first starts at 0; each ends where the next starts; ranges are sorted and
pairwise disjoint; their union is exactly `[0, chunk * W)`, which lies inside `[0, N)`. -/
theorem partition_correct (N W : Nat) (hN : N < 2 ^ 64) (h1 : 1 ≤ W) (hW : W ≤ N) :
    (workerRanges N W).length = W ∧
    (∀ i, i < W → (i + 1) * (N / W) < 2 ^ 64 ∧
      (workerRanges N W)[i]? = some (i * (N / W), (i + 1) * (N / W)) ∧
      ∀ rnd, workerResult rnd (N / W) i = CalculatePi rnd (i * (N / W)) ((i + 1) * (N / W))) ∧
    (∀ i, i < W → (workerRange (N / W) i).1 < (workerRange (N / W) i).2) ∧
    (workerRange (N / W) 0).1 = 0 ∧
    (∀ i, i + 1 < W → (workerRange (N / W) i).2 = (workerRange (N / W) (i + 1)).1) ∧
    (∀ i j, i < j → j < W → (workerRange (N / W) i).2 ≤ (workerRange (N / W) j).1) ∧
    (∀ i j x, i < W → j < W → i ≠ j →
      ¬ (((workerRange (N / W) i).1 ≤ x ∧ x < (workerRange (N / W) i).2) ∧
         ((workerRange (N / W) j).1 ≤ x ∧ x < (workerRange (N / W) j).2))) ∧
    (∀ x, (∃ i, i < W ∧ (workerRange (N / W) i).1 ≤ x ∧ x < (workerRange (N / W) i).2) ↔
      x < N / W * W) ∧
    N / W * W ≤ N := by
  have hchunk : 0 < N / W := Nat.div_pos hW h1
  have hrange : ∀ i, i < W → workerRange (N / W) i = (i * (N / W), (i + 1) * (N / W)) :=
    fun i hi => workerRange_eq _ _ (worker_no_wrap N W i hN hi).2
  have hsorted : ∀ i j, i < j → j < W →
      (workerRange (N / W) i).2 ≤ (workerRange (N / W) j).1 := by
    intro i j hij hj
    rw [hrange i (by omega), hrange j hj]
    exact Nat.mul_le_mul_right _ hij
  refine ⟨by simp [workerRanges], ?_, ?_, ?_, ?_, hsorted, ?_, ?_, Nat.div_mul_le_self N W⟩
  · intro i hi
    refine ⟨(worker_no_wrap N W i hN hi).2, ?_, ?_⟩
    · simp [workerRanges, List.getElem?_map, List.getElem?_range hi, hrange i hi]
    · intro rnd
      rw [workerResult, hrange i hi]
  · intro i hi
    rw [hrange i hi]
    show i * (N / W) < (i + 1) * (N / W)
    rw [Nat.add_mul]
    omega
  · simp [workerRange]
  · intro i hi
    rw [hrange i (by omega), hrange (i + 1) hi]
  · intro i j x hi hj hne h
    rcases Nat.lt_or_gt_of_ne hne with hlt | hgt
    · have := hsorted i j hlt hj
      omega
    · have := hsorted j i hgt hi
      omega
  · intro x
    constructor
    · rintro ⟨i, hi, -, hx⟩
      rw [hrange i hi] at hx
      have : (i + 1) * (N / W) ≤ W * (N / W) := Nat.mul_le_mul_right _ hi
      rw [Nat.mul_comm (N / W) W]
      exact lt_of_lt_of_le hx this
    · intro hx
      have hi : x / (N / W) < W := (Nat.div_lt_iff_lt_mul hchunk).2 (by rw [Nat.mul_comm]; exact hx)
      refine ⟨x / (N / W), hi, ?_⟩
      rw [hrange _ hi]
      refine ⟨Nat.div_mul_le_self x (N / W), ?_⟩
      show x < (x / (N / W) + 1) * (N / W)
      rw [Nat.mul_comm]
      exact Nat.lt_mul_div_succ x hchunk

/-- C1 at `N = 10`, `W = 3`: the ranges are `[0,3)`, `[3,6)`, `[6,9)`, their union is
`[0, 9)` and index 9 is in none of them. -/
theorem partition_correct_witness :
    workerRanges 10 3 = [(0, 3), (3, 6), (6, 9)] ∧
    (∀ x, (∃ i, i < 3 ∧ (workerRange (10 / 3) i).1 ≤ x ∧ x < (workerRange (10 / 3) i).2) ↔
      x < 10 / 3 * 3) ∧
    ¬ (∃ i, i < 3 ∧ (workerRange (10 / 3) i).1 ≤ 9 ∧ 9 < (workerRange (10 / 3) i).2) := by
  have h := partition_correct 10 3 (by norm_num) (by decide) (by decide)
  refine ⟨by decide, h.2.2.2.2.2.2.2.1, ?_⟩
  rw [h.2.2.2.2.2.2.2.1 9]
  decide


/-! ## Aggregation -/

/-- Sorting rearranges. -/
theorem sortDescending_perm {α : Type} [LinearOrder α] (l : List α) :
    (sortDescending l).Perm l :=
  List.perm_insertionSort _ l

/-- Sorting yields a descending list. -/
theorem sortDescending_sorted {α : Type} [LinearOrder α] (l : List α) :
    (sortDescending l).Sorted (fun a b => b ≤ a) :=
  List.sorted_insertionSort (· ≥ ·) l

/-- The descending rearrangement of a list is unique, so `sortDescending` is what every
implementation of `std::sort` returns. -/
theorem sortDescending_unique {α : Type} [LinearOrder α] (l sorted : List α)
    (hperm : sorted.Perm l) (hsorted : sorted.Sorted (fun a b => b ≤ a)) :
    sorted = sortDescending l :=
  List.eq_of_perm_of_sorted (r := (· ≥ ·)) (hperm.trans (sortDescending_perm l).symm)
    hsorted (sortDescending_sorted l)

/-- C5. Sorting the values in descending order and summing them left to right from
`zero` gives the same value for any two sequences that are rearrangements of each other,
whatever the binary operation `add` is (associative or not, commutative or not), for values
of a totally ordered type. -/
theorem aggregate_perm {α : Type} [LinearOrder α] (add : α → α → α) (zero : α)
    (l₁ l₂ : List α) (h : l₁.Perm l₂) :
    aggregate add zero l₁ = aggregate add zero l₂ := by
  have : sortDescending l₁ = sortDescending l₂ :=
    sortDescending_unique l₂ (sortDescending l₁) ((sortDescending_perm l₁).trans h)
      (sortDescending_sorted l₁)
  rw [aggregate, aggregate, this]

/-- C5 for the operation `a - 2 * b` on integers and two orders of arrival of 1, 2, 3. -/
theorem aggregate_perm_witness :
    [(1 : ℤ), 3, 2].Perm [2, 1, 3] ∧
    aggregate (fun a b : ℤ => a - 2 * b) 0 [1, 3, 2] =
      aggregate (fun a b : ℤ => a - 2 * b) 0 [2, 1, 3] :=
  ⟨by decide, aggregate_perm _ 0 _ _ (by decide)⟩


/-! ## What the backends collect -/

/-- The results of the workers in worker order. -/
theorem workerResults_length (rnd : ℚ → ℚ) (chunk W : Nat) :
    ((List.range W).map (workerResult rnd chunk)).length = W := by simp

/-- Pushing one value per element yields the mapped list. -/
theorem foldl_push {β : Type} (g : β → ℚ) (l : List β) (init : List ℚ) :
    l.foldl (fun (sums : List ℚ) x => sums ++ [g x]) init = init ++ l.map g := by
  induction l generalizing init with
  | nil => simp
  | cons x l ih => simp [ih]

/-- Writing slot `i` for every `i < k` fills the first `k` slots. -/
theorem foldl_set (f : Nat → ℚ) (n k : Nat) (hk : k ≤ n) :
    (List.range k).foldl (fun (sums : List ℚ) i => sums.set i (f i)) (List.replicate n 0) =
      (List.range k).map f ++ List.replicate (n - k) 0 := by
  induction k with
  | zero => simp
  | succ k ih =>
    rw [List.range_succ, List.foldl_append, ih (by omega)]
    have h1 : n - k = (n - (k + 1)) + 1 := by omega
    have hlen : ((List.range k).map f).length = k := by simp
    rw [h1, List.replicate_succ]
    simp only [List.foldl_cons, List.foldl_nil, List.map_append, List.map_cons, List.map_nil]
    rw [List.set_append_right _ _ (by rw [hlen]), hlen, Nat.sub_self, List.set_cons_zero]
    simp

/-- The thread backend sorts and sums the workers' results. -/
theorem CalculatePiMultithreaded_eq {ub : Outcome} (rnd : ℚ → ℚ) (N W : Nat)
    (hW : W ≠ 0) :
    CalculatePiMultithreaded ub rnd N W =
      .value (aggregate (addDouble rnd) 0 ((List.range W).map (workerResult rnd (N / W)))) := by
  rw [CalculatePiMultithreaded, if_neg hW]
  simp only [foldl_set _ W W le_rfl, Nat.sub_self, List.replicate_zero, List.append_nil]

/-- The future/promise backend sorts and sums the workers' results. -/
theorem CalculatePiMultithreadedWithFutureAndPromises_eq {ub : Outcome} (rnd : ℚ → ℚ)
    (N W : Nat)
    (hW : W ≠ 0) :
    CalculatePiMultithreadedWithFutureAndPromises ub rnd N W =
      .value (aggregate (addDouble rnd) 0 ((List.range W).map (workerResult rnd (N / W)))) := by
  rw [CalculatePiMultithreadedWithFutureAndPromises, if_neg hW]
  simp only [foldl_push (fun i => ((List.range W).map (workerResult rnd (N / W))).getD i 0),
    List.nil_append]
  congr 2
  apply List.map_congr_left
  intro i hi
  rw [List.mem_range] at hi
  simp [List.getD_eq_getElem?_getD, List.getElem?_map, List.getElem?_range hi]

/-- The async backend sorts and sums the workers' results. -/
theorem CalculatePiMultithreadedWithAsync_eq {ub : Outcome} (rnd : ℚ → ℚ) (N W : Nat)
    (hW : W ≠ 0) :
    CalculatePiMultithreadedWithAsync ub rnd N W =
      .value (aggregate (addDouble rnd) 0 ((List.range W).map (workerResult rnd (N / W)))) := by
  rw [CalculatePiMultithreadedWithAsync, if_neg hW]
  simp only [foldl_push (fun x : ℚ => x), List.nil_append, List.map_id_fun', List.map_id', id]


/-! ## Reductions under an associative and commutative addition -/

/-- Folding into the right operand, for an associative operation. -/
theorem foldl_assoc (add : ℚ → ℚ → ℚ) (hassoc : ∀ a b c, add (add a b) c = add a (add b c))
    (x b : ℚ) (m : List ℚ) : add x (m.foldl add b) = m.foldl add (add x b) := by
  induction m generalizing b with
  | nil => rfl
  | cons c m ih => rw [List.foldl_cons, List.foldl_cons, ih, hassoc]

/-- A plan has at least one operand. -/
theorem ReducePlan.operands_ne_nil (p : ReducePlan) : p.operands ≠ [] := by
  induction p with
  | operand k => simp [ReducePlan.operands]
  | combine l r ihl _ => simp [ReducePlan.operands, ihl]

/-- For an associative operation a plan is the left fold of its operands. -/
theorem ReducePlan.eval_eq_foldl (add : ℚ → ℚ → ℚ)
    (hassoc : ∀ a b c, add (add a b) c = add a (add b c)) (xs : List ℚ) (p : ReducePlan) :
    ∃ a l, p.operands.map (fun k => xs.getD k 0) = a :: l ∧ p.eval add xs = l.foldl add a := by
  induction p with
  | operand k => exact ⟨xs.getD k 0, [], by simp [ReducePlan.operands], rfl⟩
  | combine l r ihl ihr =>
    obtain ⟨a, la, hla, hea⟩ := ihl
    obtain ⟨b, lb, hlb, heb⟩ := ihr
    refine ⟨a, la ++ b :: lb, by rw [ReducePlan.operands, List.map_append, hla, hlb]; rfl, ?_⟩
    rw [ReducePlan.eval, hea, heb, List.foldl_append, List.foldl_cons,
      foldl_assoc add hassoc]

/-- For an associative and commutative operation the left fold of a non-empty list does
not depend on the order of the list, its first element included. -/
theorem foldl_perm_cons (add : ℚ → ℚ → ℚ)
    (hassoc : ∀ a b c, add (add a b) c = add a (add b c)) (hcomm : ∀ a b, add a b = add b a)
    (a b : ℚ) (l m : List ℚ) (h : (a :: l).Perm (b :: m)) :
    l.foldl add a = m.foldl add b := by
  haveI : Std.Associative add := ⟨hassoc⟩
  haveI : Std.Commutative add := ⟨hcomm⟩
  have hl : l.foldl add a = Multiset.fold add a (l : Multiset ℚ) := (Multiset.coe_fold_l add a l).symm
  have hm : m.foldl add b = Multiset.fold add b (m : Multiset ℚ) := (Multiset.coe_fold_l add b m).symm
  rw [hl, hm]
  have hms : (a ::ₘ (l : Multiset ℚ)) = b ::ₘ (m : Multiset ℚ) := by
    rw [Multiset.cons_coe, Multiset.cons_coe]
    exact Quotient.sound h
  rcases (Multiset.cons_eq_cons.1 hms) with ⟨hab, hlm⟩ | ⟨-, K, hK1, hK2⟩
  · rw [hab, hlm]
  · rw [hK1, hK2, Multiset.fold_cons'_left, Multiset.fold_cons'_left, hcomm]

/-- Reading every position of a list gives the list back. -/
theorem map_getD_range (xs : List ℚ) :
    (List.range xs.length).map (fun k => xs.getD k 0) = xs := by
  apply List.ext_getElem
  · simp
  · intro i h1 h2
    simp [List.getD_eq_getElem?_getD, List.getElem?_eq_getElem h2]

/-- For an associative and commutative addition, a valid plan over `init :: xs` yields
the left fold of any rearrangement of `xs` from `init`. -/
theorem ReducePlan.eval_valid (add : ℚ → ℚ → ℚ)
    (hassoc : ∀ a b c, add (add a b) c = add a (add b c)) (hcomm : ∀ a b, add a b = add b a)
    (init : ℚ) (xs ys : List ℚ) (hys : ys.Perm xs) (p : ReducePlan)
    (hp : p.Valid (xs.length + 1)) :
    p.eval add (init :: xs) = ys.foldl add init := by
  obtain ⟨a, l, hal, he⟩ := ReducePlan.eval_eq_foldl add hassoc (init :: xs) p
  rw [he]
  apply foldl_perm_cons add hassoc hcomm
  rw [← hal]
  have h1 : (p.operands.map (fun k => (init :: xs).getD k 0)).Perm
      ((List.range (xs.length + 1)).map (fun k => (init :: xs).getD k 0)) := hp.map _
  have h2 := map_getD_range (init :: xs)
  rw [List.length_cons] at h2
  rw [h2] at h1
  exact h1.trans (List.Perm.cons _ hys.symm)

/-- The left-to-right plan is valid: its operands are `0, 1, ..., n` in this order. -/
theorem ReducePlan.leftToRight_operands (n : Nat) :
    (ReducePlan.leftToRight n).operands = List.range (n + 1) := by
  induction n with
  | zero => rfl
  | succ n ih => rw [ReducePlan.leftToRight, ReducePlan.operands, ih, ReducePlan.operands,
      ← List.range_succ]

/-- The left-to-right plan is `std::accumulate`. -/
theorem ReducePlan.leftToRight_eval (add : ℚ → ℚ → ℚ) (init : ℚ) (xs : List ℚ) :
    (ReducePlan.leftToRight xs.length).eval add (init :: xs) = accumulate add init xs := by
  induction xs using List.reverseRecOn with
  | nil => rfl
  | append_singleton xs x ih =>
    have hlen : (xs ++ [x]).length = xs.length + 1 := by simp
    have hmono : ∀ (n : Nat), n ≤ xs.length →
        (ReducePlan.leftToRight n).eval add (init :: (xs ++ [x])) =
          (ReducePlan.leftToRight n).eval add (init :: xs) := by
      intro n
      induction n with
      | zero => intro _; rfl
      | succ n ihn =>
        intro hn
        rw [ReducePlan.leftToRight, ReducePlan.eval, ReducePlan.eval, ihn (by omega)]
        simp only [ReducePlan.eval, List.getD_eq_getElem?_getD, List.getElem?_cons_succ]
        rw [List.getElem?_append_left (by omega)]
    rw [hlen, ReducePlan.leftToRight, ReducePlan.eval, hmono _ le_rfl, ih]
    simp [accumulate, ReducePlan.eval, List.getD_eq_getElem?_getD]

/-- Exact addition is associative. -/
theorem addDouble_exact_assoc (a b c : ℚ) :
    addDouble exactDouble (addDouble exactDouble a b) c =
      addDouble exactDouble a (addDouble exactDouble b c) := by
  simp only [addDouble, exactDouble_apply]; ring

/-- Exact addition is commutative. -/
theorem addDouble_exact_comm (a b : ℚ) :
    addDouble exactDouble a b = addDouble exactDouble b a := by
  simp only [addDouble, exactDouble_apply]; ring

/-- Exact accumulation from 0 is the sum. -/
theorem accumulate_exact (l : List ℚ) (init : ℚ) :
    accumulate (addDouble exactDouble) init l = init + l.sum := by
  induction l generalizing init with
  | nil => simp [accumulate]
  | cons x l ih =>
    rw [accumulate, List.foldl_cons]
    have := ih (addDouble exactDouble init x)
    rw [accumulate] at this
    rw [this, List.sum_cons, addDouble, exactDouble_apply]
    ring

/-- Exact aggregation is the sum. -/
theorem aggregate_exact (l : List ℚ) : aggregate (addDouble exactDouble) 0 l = l.sum := by
  rw [aggregate, accumulate_exact, zero_add, (sortDescending_perm l).sum_eq]


/-! ## The backends with `std::transform_reduce` -/

/-- The policy backend evaluates the plan of its policy on `0.0` and the workers' results. -/
theorem CalculatePiMultithreadedWithPolicy_eq {ub : Outcome} (sched : Scheduler)
    (rnd : ℚ → ℚ) (N W : Nat)
    (policy : ExecutionPolicy) (hW : W ≠ 0) :
    CalculatePiMultithreadedWithPolicy ub sched rnd N W policy =
      .value ((sched policy W).eval (addDouble rnd)
        (0 :: (List.range W).map (workerResult rnd (N / W)))) := by
  rw [CalculatePiMultithreadedWithPolicy, if_neg hW]
  simp [transform_reduce]

/-- The STL backend evaluates the plan of `par` on `0.0` and the workers' results. -/
theorem CalculatePiMultithreadedWithSTL_eq {ub : Outcome} (sched : Scheduler) (rnd : ℚ → ℚ)
    (N W : Nat)
    (hW : W ≠ 0) :
    CalculatePiMultithreadedWithSTL ub sched rnd N W =
      .value ((sched .par W).eval (addDouble rnd)
        (0 :: (List.range W).map (workerResult rnd (N / W)))) := by
  rw [CalculatePiMultithreadedWithSTL, if_neg hW]
  simp [transform_reduce]

/-- The STL backend is the policy backend under `par`. -/
theorem CalculatePiMultithreadedWithSTL_eq_policy {ub : Outcome} (sched : Scheduler)
    (rnd : ℚ → ℚ)
    (N W : Nat) :
    CalculatePiMultithreadedWithSTL ub sched rnd N W =
      CalculatePiMultithreadedWithPolicy ub sched rnd N W .par := rfl

/-- For an associative and commutative addition the policy backend returns the sorted
left-to-right sum. -/
theorem policy_eq_aggregate {ub : Outcome} (sched : Scheduler) (rnd : ℚ → ℚ) (N W : Nat)
    (policy : ExecutionPolicy) (hW : W ≠ 0)
    (hassoc : ∀ a b c, addDouble rnd (addDouble rnd a b) c = addDouble rnd a (addDouble rnd b c))
    (hcomm : ∀ a b, addDouble rnd a b = addDouble rnd b a)
    (hsched : (sched policy W).Valid (W + 1)) :
    CalculatePiMultithreadedWithPolicy ub sched rnd N W policy =
      .value (aggregate (addDouble rnd) 0 ((List.range W).map (workerResult rnd (N / W)))) := by
  rw [CalculatePiMultithreadedWithPolicy_eq _ _ _ _ _ hW]
  congr 1
  apply ReducePlan.eval_valid (addDouble rnd) hassoc hcomm 0 _ _ (sortDescending_perm _)
  rw [workerResults_length]
  exact hsched

/-- The exact results of the first `k` workers sum to the exact result over `[0, k * chunk)`. -/
theorem workerResults_sum (N W : Nat) (hN : N < 2 ^ 64) :
    ∀ k, k ≤ W → ((List.range k).map (workerResult exactDouble (N / W))).sum =
      CalculatePi exactDouble 0 (k * (N / W)) := by
  intro k
  induction k with
  | zero =>
    intro _
    rw [Nat.zero_mul, CalculatePi_exact 0 0 (by norm_num) (by norm_num)]
    simp
  | succ k ih =>
    intro hk
    have hwrap := worker_no_wrap N W k hN (by omega)
    rw [List.range_succ, List.map_append, List.sum_append, ih (by omega), List.map_singleton,
      List.sum_singleton, workerResult, workerRange_eq _ _ hwrap.2]
    exact CalculatePi_add 0 _ _ (Nat.zero_le _) (Nat.mul_le_mul_right _ (Nat.le_succ k)) hwrap.2

/-- C2. For 64-bit `N` and `W ≥ 1` dividing `N`, in exact arithmetic, each of the five
backends, under any policy and any valid reduction order, returns the value of the
single-threaded `CalculatePi(0, N)`; hence they all return the same value. -/
theorem backends_equal_single_threaded (ub : Outcome) (sched : Scheduler) (N W : Nat)
    (policy : ExecutionPolicy)
    (hN : N < 2 ^ 64) (hW : 1 ≤ W) (hdiv : W ∣ N) (hsched : ∀ p, (sched p W).Valid (W + 1)) :
    CalculatePiMultithreaded ub exactDouble N W = .value (CalculatePi exactDouble 0 N) ∧
    CalculatePiMultithreadedWithFutureAndPromises ub exactDouble N W =
      .value (CalculatePi exactDouble 0 N) ∧
    CalculatePiMultithreadedWithAsync ub exactDouble N W = .value (CalculatePi exactDouble 0 N) ∧
    CalculatePiMultithreadedWithPolicy ub sched exactDouble N W policy =
      .value (CalculatePi exactDouble 0 N) ∧
    CalculatePiMultithreadedWithSTL ub sched exactDouble N W =
      .value (CalculatePi exactDouble 0 N) := by
  have hW0 : W ≠ 0 := by omega
  have hsum : aggregate (addDouble exactDouble) 0
      ((List.range W).map (workerResult exactDouble (N / W))) = CalculatePi exactDouble 0 N := by
    rw [aggregate_exact, workerResults_sum N W hN W le_rfl, Nat.mul_div_cancel' hdiv]
  have hpol : ∀ p, CalculatePiMultithreadedWithPolicy ub sched exactDouble N W p =
      .value (CalculatePi exactDouble 0 N) := by
    intro p
    rw [policy_eq_aggregate sched exactDouble N W p hW0 addDouble_exact_assoc
      addDouble_exact_comm (hsched p), hsum]
  refine ⟨?_, ?_, ?_, hpol policy, ?_⟩
  · rw [CalculatePiMultithreaded_eq _ _ _ hW0, hsum]
  · rw [CalculatePiMultithreadedWithFutureAndPromises_eq _ _ _ hW0, hsum]
  · rw [CalculatePiMultithreadedWithAsync_eq _ _ _ hW0, hsum]
  · rw [CalculatePiMultithreadedWithSTL_eq_policy]
    exact hpol .par

/-- C2 at `N = 4`, `W = 2` with left-to-right reduction under `par_unseq`: every backend
returns `CalculatePi(0, 4)`. -/
theorem backends_equal_single_threaded_witness :
    (2 ∣ 4) ∧
    CalculatePiMultithreaded .terminated exactDouble 4 2 = .value (CalculatePi exactDouble 0 4) ∧
    CalculatePiMultithreadedWithFutureAndPromises .terminated exactDouble 4 2 =
      .value (CalculatePi exactDouble 0 4) ∧
    CalculatePiMultithreadedWithAsync .terminated exactDouble 4 2 = .value (CalculatePi exactDouble 0 4) ∧
    CalculatePiMultithreadedWithPolicy .terminated inOrder exactDouble 4 2 .par_unseq =
      .value (CalculatePi exactDouble 0 4) ∧
    CalculatePiMultithreadedWithSTL .terminated inOrder exactDouble 4 2 =
      .value (CalculatePi exactDouble 0 4) :=
  ⟨by decide, backends_equal_single_threaded .terminated inOrder 4 2 .par_unseq (by norm_num) (by decide)
    (by decide) (fun p => by cases p <;> decide)⟩


/-! ## Empty ranges -/

/-- With `chunk = 0` every worker gets the range `[0, 0)`. -/
theorem workerRange_zero (i : Nat) : workerRange 0 i = (0, 0) := by
  simp [workerRange]

/-- Over an empty range `CalculatePi` returns the rounded zero. -/
theorem CalculatePi_empty (rnd : ℚ → ℚ) (start end_ : Nat)
    (h : end_ % 2 ^ 64 ≤ start % 2 ^ 64) : CalculatePi rnd start end_ = rnd 0 := by
  rw [CalculatePi, loop_done _ _ _ _ h, mul_zero]

/-- With `chunk = 0` every worker returns 0. -/
theorem workerResult_zero (rnd : ℚ → ℚ) (hrnd : rnd 0 = 0) (i : Nat) :
    workerResult rnd 0 i = 0 := by
  rw [workerResult, workerRange_zero, CalculatePi_empty rnd 0 0 le_rfl, hrnd]

/-- A left fold of zeros from zero is zero. -/
theorem accumulate_zeros (add : ℚ → ℚ → ℚ) (hadd : add 0 0 = 0) (l : List ℚ)
    (hl : ∀ x ∈ l, x = 0) : accumulate add 0 l = 0 := by
  induction l with
  | nil => rfl
  | cons x l ih =>
    have hx : x = 0 := hl x (List.mem_cons_self _ _)
    rw [accumulate, List.foldl_cons, hx, hadd]
    exact ih (fun y hy => hl y (List.mem_cons_of_mem _ hy))

/-- Aggregating zeros gives zero. -/
theorem aggregate_zeros (add : ℚ → ℚ → ℚ) (hadd : add 0 0 = 0) (l : List ℚ)
    (hl : ∀ x ∈ l, x = 0) : aggregate add 0 l = 0 :=
  accumulate_zeros add hadd _ (fun x hx => hl x ((sortDescending_perm l).mem_iff.1 hx))

/-- Every plan over zeros gives zero. -/
theorem ReducePlan.eval_zeros (add : ℚ → ℚ → ℚ) (hadd : add 0 0 = 0) (xs : List ℚ)
    (hxs : ∀ x ∈ xs, x = 0) (p : ReducePlan) : p.eval add xs = 0 := by
  induction p with
  | operand k =>
    rw [ReducePlan.eval, List.getD_eq_getElem?_getD]
    rcases h : xs[k]? with _ | v
    · rfl
    · exact hxs v (List.getElem?_mem h)
  | combine l r ihl ihr => rw [ReducePlan.eval, ihl, ihr, hadd]

/-- When `iterations / numThreads = 0` and the worker count is not zero, every backend
returns 0, for every rounding that keeps 0. -/
theorem backends_zero_chunk {ub : Outcome} (sched : Scheduler) (rnd : ℚ → ℚ) (N W : Nat)
    (policy : ExecutionPolicy) (hrnd : rnd 0 = 0) (hW : W ≠ 0) (hchunk : N / W = 0) :
    CalculatePiMultithreaded ub rnd N W = .value 0 ∧
    CalculatePiMultithreadedWithFutureAndPromises ub rnd N W = .value 0 ∧
    CalculatePiMultithreadedWithAsync ub rnd N W = .value 0 ∧
    CalculatePiMultithreadedWithPolicy ub sched rnd N W policy = .value 0 ∧
    CalculatePiMultithreadedWithSTL ub sched rnd N W = .value 0 := by
  have hadd : addDouble rnd 0 0 = 0 := by rw [addDouble, add_zero, hrnd]
  have hzeros : ∀ x ∈ (List.range W).map (workerResult rnd (N / W)), x = 0 := by
    intro x hx
    rw [List.mem_map] at hx
    obtain ⟨i, -, rfl⟩ := hx
    rw [hchunk]
    exact workerResult_zero rnd hrnd i
  have hagg := aggregate_zeros (addDouble rnd) hadd _ hzeros
  have hzeros2 : ∀ x ∈ (0 : ℚ) :: (List.range W).map (workerResult rnd (N / W)), x = 0 := by
    intro x hx
    rcases List.mem_cons.1 hx with h | h
    · exact h
    · exact hzeros x h
  refine ⟨?_, ?_, ?_, ?_, ?_⟩
  · rw [CalculatePiMultithreaded_eq _ _ _ hW, hagg]
  · rw [CalculatePiMultithreadedWithFutureAndPromises_eq _ _ _ hW, hagg]
  · rw [CalculatePiMultithreadedWithAsync_eq _ _ _ hW, hagg]
  · rw [CalculatePiMultithreadedWithPolicy_eq _ _ _ _ _ hW,
      ReducePlan.eval_zeros _ hadd _ hzeros2]
  · rw [CalculatePiMultithreadedWithSTL_eq _ _ _ _ hW, ReducePlan.eval_zeros _ hadd _ hzeros2]

/-- C10. For `W ≥ 1` and `N < W`: `chunk = N / W` is 0, every worker receives the empty
range `[0, 0)`, every worker's result is 0, and each of the five backends returns exactly
0, a number and not an error, under every policy and reduction order and for every
rounding of doubles that keeps 0. -/
theorem more_workers_than_iterations (ub : Outcome) (sched : Scheduler) (rnd : ℚ → ℚ)
    (N W : Nat)
    (policy : ExecutionPolicy) (hrnd : rnd 0 = 0) (hW : 1 ≤ W) (hN : N < W) :
    N / W = 0 ∧
    (∀ i, i < W → workerRange (N / W) i = (0, 0)) ∧
    (∀ i, i < W → workerResult rnd (N / W) i = 0) ∧
    CalculatePiMultithreaded ub rnd N W = .value 0 ∧
    CalculatePiMultithreadedWithFutureAndPromises ub rnd N W = .value 0 ∧
    CalculatePiMultithreadedWithAsync ub rnd N W = .value 0 ∧
    CalculatePiMultithreadedWithPolicy ub sched rnd N W policy = .value 0 ∧
    CalculatePiMultithreadedWithSTL ub sched rnd N W = .value 0 := by
  have hchunk : N / W = 0 := Nat.div_eq_of_lt hN
  refine ⟨hchunk, ?_, ?_, backends_zero_chunk sched rnd N W policy hrnd (by omega) hchunk⟩
  · intro i _
    rw [hchunk, workerRange_zero]
  · intro i _
    rw [hchunk, workerResult_zero rnd hrnd]

/-- C10 at `N = 2`, `W = 3` in exact arithmetic: two iterations are requested and every
backend returns 0. -/
theorem more_workers_than_iterations_witness :
    exactDouble 0 = 0 ∧ 2 / 3 = 0 ∧
    CalculatePiMultithreaded .terminated exactDouble 2 3 = .value 0 ∧
    CalculatePiMultithreadedWithFutureAndPromises .terminated exactDouble 2 3 = .value 0 ∧
    CalculatePiMultithreadedWithAsync .terminated exactDouble 2 3 = .value 0 ∧
    CalculatePiMultithreadedWithPolicy .terminated inOrder exactDouble 2 3 .seq = .value 0 ∧
    CalculatePiMultithreadedWithSTL .terminated inOrder exactDouble 2 3 = .value 0 := by
  have h := more_workers_than_iterations .terminated inOrder exactDouble 2 3 .seq rfl (by decide) (by decide)
  exact ⟨rfl, h.1, h.2.2.2⟩

/-! ## Configuration -/

/-- The rounding of binary64 keeps 0. -/
theorem binary64_zero : binary64 0 = 0 := by
  rw [binary64, if_pos rfl]

/-- C7 fails: with zero iterations and one worker the thread backend returns the number 0;
there is no error. -/
theorem zero_iterations_returns_zero :
    CalculatePiMultithreaded .terminated exactDouble 0 1 = .value 0 ∧
    (CalculatePiMultithreaded .terminated exactDouble 0 1).isValue = true := by
  have h := (@backends_zero_chunk .terminated inOrder exactDouble 0 1 .seq rfl
    (by decide) (by decide)).1
  rw [h]
  exact ⟨rfl, rfl⟩

/-- C7 amended. With zero iterations (`N = 0`) and a worker count `W ≥ 1`, every backend
computes the chunk size 0, runs its `W` workers and returns the number 0, not an error,
for every rounding of doubles that keeps 0 and whatever a build does with a zero divisor.
Nothing is stated for `W = 0`. -/
theorem config_behaviour (ub : Outcome) (sched : Scheduler) (rnd : ℚ → ℚ)
    (policy : ExecutionPolicy) (W : Nat) (hW : 1 ≤ W) (hrnd : rnd 0 = 0) :
    0 / W = 0 ∧
    (workerRanges 0 W).length = W ∧
    (∀ i, i < W → workerResult rnd (0 / W) i = 0) ∧
    CalculatePiMultithreaded ub rnd 0 W = .value 0 ∧
    CalculatePiMultithreadedWithFutureAndPromises ub rnd 0 W = .value 0 ∧
    CalculatePiMultithreadedWithAsync ub rnd 0 W = .value 0 ∧
    CalculatePiMultithreadedWithPolicy ub sched rnd 0 W policy = .value 0 ∧
    CalculatePiMultithreadedWithSTL ub sched rnd 0 W = .value 0 := by
  refine ⟨Nat.zero_div W, by simp [workerRanges], ?_,
    backends_zero_chunk sched rnd 0 W policy hrnd (by omega) (Nat.zero_div W)⟩
  intro i _
  rw [Nat.zero_div, workerResult_zero rnd hrnd]

/-- C7 amended at `W = 4`, `N = 0` in binary64, for a build that would end the run on a
zero divisor and for one that would return 7. -/
theorem config_behaviour_witness :
    binary64 0 = 0 ∧
    CalculatePiMultithreaded .terminated binary64 0 4 = .value 0 ∧
    CalculatePiMultithreadedWithFutureAndPromises .terminated binary64 0 4 = .value 0 ∧
    CalculatePiMultithreadedWithAsync .terminated binary64 0 4 = .value 0 ∧
    CalculatePiMultithreadedWithPolicy .terminated inOrder binary64 0 4 .par = .value 0 ∧
    CalculatePiMultithreadedWithSTL .terminated inOrder binary64 0 4 = .value 0 ∧
    CalculatePiMultithreaded (.value 7) binary64 0 4 = .value 0 := by
  obtain ⟨-, -, -, h1, h2, h3, h4, h5⟩ :=
    config_behaviour .terminated inOrder binary64 .par 4 (by decide) binary64_zero
  exact ⟨binary64_zero, h1, h2, h3, h4, h5,
    (config_behaviour (.value 7) inOrder binary64 .par 4 (by decide) binary64_zero).2.2.2.1⟩

/-! ## The reduction order of the policy backends -/

/-- With the left-to-right scheduler the policy backend accumulates the workers' results in
worker order, unsorted. -/
theorem policy_inOrder {ub : Outcome} (rnd : ℚ → ℚ) (N W : Nat) (policy : ExecutionPolicy)
    (hW : W ≠ 0) :
    CalculatePiMultithreadedWithPolicy ub inOrder rnd N W policy =
      .value (accumulate (addDouble rnd) 0 ((List.range W).map (workerResult rnd (N / W)))) := by
  rw [CalculatePiMultithreadedWithPolicy_eq _ _ _ _ _ hW]
  have h := ReducePlan.leftToRight_eval (addDouble rnd) 0
    ((List.range W).map (workerResult rnd (N / W)))
  rw [workerResults_length] at h
  rw [← h, inOrder]

/-- The rounding of binary64 for a number whose binary exponent is known. -/
theorem binary64_of_exp (x : ℚ) (e : ℤ) (h1 : (2 : ℚ) ^ e ≤ |x|) (h2 : |x| < (2 : ℚ) ^ (e + 1)) :
    binary64 x = (roundHalfEven (x / 2 ^ (e - 52)) : ℚ) * 2 ^ (e - 52) := by
  have hpos : (0 : ℚ) < |x| := lt_of_lt_of_le (zpow_pos (by norm_num) e) h1
  have hx : x ≠ 0 := abs_pos.1 hpos
  have hlog : Int.log 2 |x| = e := by
    have ha : e ≤ Int.log 2 |x| :=
      (Int.zpow_le_iff_le_log (by norm_num) hpos).1 (by exact_mod_cast h1)
    have hb : Int.log 2 |x| < e + 1 :=
      (Int.lt_zpow_iff_log_lt (by norm_num) hpos).1 (by exact_mod_cast h2)
    omega
  rw [binary64, if_neg hx, hlog]

/-- A worker with one iteration: the four roundings of `CalculatePi(i, i + 1)`. -/
theorem workerResult_single (rnd : ℚ → ℚ) (i : Nat) (t q s r : ℚ) (hi : 2 * i + 1 < 2 ^ 64)
    (ht : rnd (((2 * i + 1 : Nat)) : ℚ) = t)
    (hq : rnd ((((if i % 2 ≠ 0 then -1 else 1 : Int)) : ℚ) / t) = q)
    (hs : rnd (0 + q) = s) (hr : rnd (4 * s) = r) :
    workerResult rnd 1 i = r := by
  have hrange : workerRange 1 i = (i, i + 1) := by
    rw [workerRange_eq 1 i (by omega)]
    simp
  rw [workerResult, hrange, CalculatePi, Nat.mod_eq_of_lt (by omega), loop_step,
    if_pos (by rw [Nat.mod_eq_of_lt (by omega)]; exact Nat.lt_succ_self i),
    Nat.mod_eq_of_lt (show i + 1 < 2 ^ 64 by omega),
    loop_done _ _ _ _ (by rw [Nat.mod_eq_of_lt (by omega)]),
    Nat.mod_eq_of_lt hi, ht, hq, hs, hr]

/-- The results of six workers with one iteration each, in binary64. -/
theorem workerResults_binary64 :
    (List.range 6).map (workerResult binary64 (6 / 6)) =
      [4,
       -6004799503160661 / 4503599627370496,
       3602879701896397 / 4503599627370496,
       -2573485501354569 / 4503599627370496,
       2001599834386887 / 4503599627370496,
       -3275345183542179 / 9007199254740992] := by
  have h0 : workerResult binary64 1 0 = 4 := by
    have ht : binary64 (1 : ℚ) = 1 := by
      rw [binary64_of_exp _ (0) (by norm_num [abs_of_pos]) (by norm_num [abs_of_pos])]
      norm_num [roundHalfEven]
    have hq : binary64 (1 : ℚ) = 1 := by
      rw [binary64_of_exp _ (0) (by norm_num [abs_of_pos]) (by norm_num [abs_of_pos])]
      norm_num [roundHalfEven]
    have hs : binary64 (1 : ℚ) = 1 := by
      rw [binary64_of_exp _ (0) (by norm_num [abs_of_pos]) (by norm_num [abs_of_pos])]
      norm_num [roundHalfEven]
    have hr : binary64 (4 : ℚ) = 4 := by
      rw [binary64_of_exp _ (2) (by norm_num [abs_of_pos]) (by norm_num [abs_of_pos])]
      norm_num [roundHalfEven]
    exact workerResult_single binary64 0 (1) (1) (1) (4)
      (by norm_num) (by convert ht using 2) (by convert hq using 2; norm_num)
      (by convert hs using 2; norm_num) (by convert hr using 2; norm_num)
  have h1 : workerResult binary64 1 1 = -6004799503160661 / 4503599627370496 := by
    have ht : binary64 (3 : ℚ) = 3 := by
      rw [binary64_of_exp _ (1) (by norm_num [abs_of_pos]) (by norm_num [abs_of_pos])]
      norm_num [roundHalfEven]
    have hq : binary64 (-1 / 3 : ℚ) = -6004799503160661 / 18014398509481984 := by
      rw [binary64_of_exp _ (-2) (by norm_num [abs_of_neg]) (by norm_num [abs_of_neg])]
      norm_num [roundHalfEven]
    have hs : binary64 (-6004799503160661 / 18014398509481984 : ℚ) = -6004799503160661 / 18014398509481984 := by
      rw [binary64_of_exp _ (-2) (by norm_num [abs_of_neg]) (by norm_num [abs_of_neg])]
      norm_num [roundHalfEven]
    have hr : binary64 (-6004799503160661 / 4503599627370496 : ℚ) = -6004799503160661 / 4503599627370496 := by
      rw [binary64_of_exp _ (0) (by norm_num [abs_of_neg]) (by norm_num [abs_of_neg])]
      norm_num [roundHalfEven]
    exact workerResult_single binary64 1 (3) (-6004799503160661 / 18014398509481984) (-6004799503160661 / 18014398509481984) (-6004799503160661 / 4503599627370496)
      (by norm_num) (by convert ht using 2) (by convert hq using 2)
      (by convert hs using 2; norm_num) (by convert hr using 2; norm_num)
  have h2 : workerResult binary64 1 2 = 3602879701896397 / 4503599627370496 := by
    have ht : binary64 (5 : ℚ) = 5 := by
      rw [binary64_of_exp _ (2) (by norm_num [abs_of_pos]) (by norm_num [abs_of_pos])]
      norm_num [roundHalfEven]
    have hq : binary64 (1 / 5 : ℚ) = 3602879701896397 / 18014398509481984 := by
      rw [binary64_of_exp _ (-3) (by norm_num [abs_of_pos]) (by norm_num [abs_of_pos])]
      norm_num [roundHalfEven]
    have hs : binary64 (3602879701896397 / 18014398509481984 : ℚ) = 3602879701896397 / 18014398509481984 := by
      rw [binary64_of_exp _ (-3) (by norm_num [abs_of_pos]) (by norm_num [abs_of_pos])]
      norm_num [roundHalfEven]
    have hr : binary64 (3602879701896397 / 4503599627370496 : ℚ) = 3602879701896397 / 4503599627370496 := by
      rw [binary64_of_exp _ (-1) (by norm_num [abs_of_pos]) (by norm_num [abs_of_pos])]
      norm_num [roundHalfEven]
    exact workerResult_single binary64 2 (5) (3602879701896397 / 18014398509481984) (3602879701896397 / 18014398509481984) (3602879701896397 / 4503599627370496)
      (by norm_num) (by convert ht using 2) (by convert hq using 2)
      (by convert hs using 2; norm_num) (by convert hr using 2; norm_num)
  have h3 : workerResult binary64 1 3 = -2573485501354569 / 4503599627370496 := by
    have ht : binary64 (7 : ℚ) = 7 := by
      rw [binary64_of_exp _ (2) (by norm_num [abs_of_pos]) (by norm_num [abs_of_pos])]
      norm_num [roundHalfEven]
    have hq : binary64 (-1 / 7 : ℚ) = -2573485501354569 / 18014398509481984 := by
      rw [binary64_of_exp _ (-3) (by norm_num [abs_of_neg]) (by norm_num [abs_of_neg])]
      norm_num [roundHalfEven]
    have hs : binary64 (-2573485501354569 / 18014398509481984 : ℚ) = -2573485501354569 / 18014398509481984 := by
      rw [binary64_of_exp _ (-3) (by norm_num [abs_of_neg]) (by norm_num [abs_of_neg])]
      norm_num [roundHalfEven]
    have hr : binary64 (-2573485501354569 / 4503599627370496 : ℚ) = -2573485501354569 / 4503599627370496 := by
      rw [binary64_of_exp _ (-1) (by norm_num [abs_of_neg]) (by norm_num [abs_of_neg])]
      norm_num [roundHalfEven]
    exact workerResult_single binary64 3 (7) (-2573485501354569 / 18014398509481984) (-2573485501354569 / 18014398509481984) (-2573485501354569 / 4503599627370496)
      (by norm_num) (by convert ht using 2) (by convert hq using 2)
      (by convert hs using 2; norm_num) (by convert hr using 2; norm_num)
  have h4 : workerResult binary64 1 4 = 2001599834386887 / 4503599627370496 := by
    have ht : binary64 (9 : ℚ) = 9 := by
      rw [binary64_of_exp _ (3) (by norm_num [abs_of_pos]) (by norm_num [abs_of_pos])]
      norm_num [roundHalfEven]
    have hq : binary64 (1 / 9 : ℚ) = 2001599834386887 / 18014398509481984 := by
      rw [binary64_of_exp _ (-4) (by norm_num [abs_of_pos]) (by norm_num [abs_of_pos])]
      norm_num [roundHalfEven]
    have hs : binary64 (2001599834386887 / 18014398509481984 : ℚ) = 2001599834386887 / 18014398509481984 := by
      rw [binary64_of_exp _ (-4) (by norm_num [abs_of_pos]) (by norm_num [abs_of_pos])]
      norm_num [roundHalfEven]
    have hr : binary64 (2001599834386887 / 4503599627370496 : ℚ) = 2001599834386887 / 4503599627370496 := by
      rw [binary64_of_exp _ (-2) (by norm_num [abs_of_pos]) (by norm_num [abs_of_pos])]
      norm_num [roundHalfEven]
    exact workerResult_single binary64 4 (9) (2001599834386887 / 18014398509481984) (2001599834386887 / 18014398509481984) (2001599834386887 / 4503599627370496)
      (by norm_num) (by convert ht using 2) (by convert hq using 2)
      (by convert hs using 2; norm_num) (by convert hr using 2; norm_num)
  have h5 : workerResult binary64 1 5 = -3275345183542179 / 9007199254740992 := by
    have ht : binary64 (11 : ℚ) = 11 := by
      rw [binary64_of_exp _ (3) (by norm_num [abs_of_pos]) (by norm_num [abs_of_pos])]
      norm_num [roundHalfEven]
    have hq : binary64 (-1 / 11 : ℚ) = -3275345183542179 / 36028797018963968 := by
      rw [binary64_of_exp _ (-4) (by norm_num [abs_of_neg]) (by norm_num [abs_of_neg])]
      norm_num [roundHalfEven]
    have hs : binary64 (-3275345183542179 / 36028797018963968 : ℚ) = -3275345183542179 / 36028797018963968 := by
      rw [binary64_of_exp _ (-4) (by norm_num [abs_of_neg]) (by norm_num [abs_of_neg])]
      norm_num [roundHalfEven]
    have hr : binary64 (-3275345183542179 / 9007199254740992 : ℚ) = -3275345183542179 / 9007199254740992 := by
      rw [binary64_of_exp _ (-2) (by norm_num [abs_of_neg]) (by norm_num [abs_of_neg])]
      norm_num [roundHalfEven]
    exact workerResult_single binary64 5 (11) (-3275345183542179 / 36028797018963968) (-3275345183542179 / 36028797018963968) (-3275345183542179 / 9007199254740992)
      (by norm_num) (by convert ht using 2) (by convert hq using 2)
      (by convert hs using 2; norm_num) (by convert hr using 2; norm_num)
  have h66 : 6 / 6 = 1 := by norm_num
  rw [h66]
  simp only [List.range_succ, List.range_zero, List.nil_append, List.cons_append, List.map_cons,
    List.map_nil, h0, h1, h2, h3, h4, h5]

/-- The binary64 sum of the six results from `0.0` in worker order. -/
theorem accumulate_in_order :
    accumulate (addDouble binary64) 0
      [4,
       -6004799503160661 / 4503599627370496,
       3602879701896397 / 4503599627370496,
       -2573485501354569 / 4503599627370496,
       2001599834386887 / 4503599627370496,
       -3275345183542179 / 9007199254740992] =
      6701460224739475 / 2251799813685248 := by
  have a0 : addDouble binary64 (0) (4) = 4 := by
    have hb : binary64 (4 : ℚ) = 4 := by
      rw [binary64_of_exp _ (2) (by norm_num [abs_of_pos]) (by norm_num [abs_of_pos])]
      norm_num [roundHalfEven]
    rw [addDouble]
    convert hb using 2; norm_num
  have a1 : addDouble binary64 (4) (-6004799503160661 / 4503599627370496) = 3002399751580331 / 1125899906842624 := by
    have hb : binary64 (12009599006321323 / 4503599627370496 : ℚ) = 3002399751580331 / 1125899906842624 := by
      rw [binary64_of_exp _ (1) (by norm_num [abs_of_pos]) (by norm_num [abs_of_pos])]
      norm_num [roundHalfEven]
    rw [addDouble]
    convert hb using 2; norm_num
  have a2 : addDouble binary64 (3002399751580331 / 1125899906842624) (3602879701896397 / 4503599627370496) = 1951559838527215 / 562949953421312 := by
    have hb : binary64 (15612478708217721 / 4503599627370496 : ℚ) = 1951559838527215 / 562949953421312 := by
      rw [binary64_of_exp _ (1) (by norm_num [abs_of_pos]) (by norm_num [abs_of_pos])]
      norm_num [roundHalfEven]
    rw [addDouble]
    convert hb using 2; norm_num
  have a3 : addDouble binary64 (1951559838527215 / 562949953421312) (-2573485501354569 / 4503599627370496) = 814937075428947 / 281474976710656 := by
    have hb : binary64 (13038993206863151 / 4503599627370496 : ℚ) = 814937075428947 / 281474976710656 := by
      rw [binary64_of_exp _ (1) (by norm_num [abs_of_pos]) (by norm_num [abs_of_pos])]
      norm_num [roundHalfEven]
    rw [addDouble]
    convert hb using 2; norm_num
  have a4 : addDouble binary64 (814937075428947 / 281474976710656) (2001599834386887 / 4503599627370496) = 1880074130156255 / 562949953421312 := by
    have hb : binary64 (15040593041250039 / 4503599627370496 : ℚ) = 1880074130156255 / 562949953421312 := by
      rw [binary64_of_exp _ (1) (by norm_num [abs_of_pos]) (by norm_num [abs_of_pos])]
      norm_num [roundHalfEven]
    rw [addDouble]
    convert hb using 2; norm_num
  have a5 : addDouble binary64 (1880074130156255 / 562949953421312) (-3275345183542179 / 9007199254740992) = 6701460224739475 / 2251799813685248 := by
    have hb : binary64 (26805840898957901 / 9007199254740992 : ℚ) = 6701460224739475 / 2251799813685248 := by
      rw [binary64_of_exp _ (1) (by norm_num [abs_of_pos]) (by norm_num [abs_of_pos])]
      norm_num [roundHalfEven]
    rw [addDouble]
    convert hb using 2; norm_num
  simp only [accumulate, List.foldl_cons, List.foldl_nil, a0, a1, a2, a3, a4, a5]

/-- The binary64 sum of the six results from `0.0` in descending order. -/
theorem accumulate_sorted :
    accumulate (addDouble binary64) 0
      [4,
       3602879701896397 / 4503599627370496,
       2001599834386887 / 4503599627370496,
       -3275345183542179 / 9007199254740992,
       -2573485501354569 / 4503599627370496,
       -6004799503160661 / 4503599627370496] =
      1675365056184869 / 562949953421312 := by
  have a0 : addDouble binary64 (0) (4) = 4 := by
    have hb : binary64 (4 : ℚ) = 4 := by
      rw [binary64_of_exp _ (2) (by norm_num [abs_of_pos]) (by norm_num [abs_of_pos])]
      norm_num [roundHalfEven]
    rw [addDouble]
    convert hb using 2; norm_num
  have a1 : addDouble binary64 (4) (3602879701896397 / 4503599627370496) = 5404319552844595 / 1125899906842624 := by
    have hb : binary64 (21617278211378381 / 4503599627370496 : ℚ) = 5404319552844595 / 1125899906842624 := by
      rw [binary64_of_exp _ (2) (by norm_num [abs_of_pos]) (by norm_num [abs_of_pos])]
      norm_num [roundHalfEven]
    rw [addDouble]
    convert hb using 2; norm_num
  have a2 : addDouble binary64 (5404319552844595 / 1125899906842624) (2001599834386887 / 4503599627370496) = 5904719511441317 / 1125899906842624 := by
    have hb : binary64 (23618878045765267 / 4503599627370496 : ℚ) = 5904719511441317 / 1125899906842624 := by
      rw [binary64_of_exp _ (2) (by norm_num [abs_of_pos]) (by norm_num [abs_of_pos])]
      norm_num [roundHalfEven]
    rw [addDouble]
    convert hb using 2; norm_num
  have a3 : addDouble binary64 (5904719511441317 / 1125899906842624) (-3275345183542179 / 9007199254740992) = 5495301363498545 / 1125899906842624 := by
    have hb : binary64 (43962410907988357 / 9007199254740992 : ℚ) = 5495301363498545 / 1125899906842624 := by
      rw [binary64_of_exp _ (2) (by norm_num [abs_of_pos]) (by norm_num [abs_of_pos])]
      norm_num [roundHalfEven]
    rw [addDouble]
    convert hb using 2; norm_num
  have a4 : addDouble binary64 (5495301363498545 / 1125899906842624) (-2573485501354569 / 4503599627370496) = 4851929988159903 / 1125899906842624 := by
    have hb : binary64 (19407719952639611 / 4503599627370496 : ℚ) = 4851929988159903 / 1125899906842624 := by
      rw [binary64_of_exp _ (2) (by norm_num [abs_of_pos]) (by norm_num [abs_of_pos])]
      norm_num [roundHalfEven]
    rw [addDouble]
    convert hb using 2; norm_num
  have a5 : addDouble binary64 (4851929988159903 / 1125899906842624) (-6004799503160661 / 4503599627370496) = 1675365056184869 / 562949953421312 := by
    have hb : binary64 (13402920449478951 / 4503599627370496 : ℚ) = 1675365056184869 / 562949953421312 := by
      rw [binary64_of_exp _ (1) (by norm_num [abs_of_pos]) (by norm_num [abs_of_pos])]
      norm_num [roundHalfEven]
    rw [addDouble]
    convert hb using 2; norm_num
  simp only [accumulate, List.foldl_cons, List.foldl_nil, a0, a1, a2, a3, a4, a5]

/-- The descending order of the six results. -/
theorem sortDescending_binary64 :
    sortDescending
      [(4 : ℚ),
       -6004799503160661 / 4503599627370496,
       3602879701896397 / 4503599627370496,
       -2573485501354569 / 4503599627370496,
       2001599834386887 / 4503599627370496,
       -3275345183542179 / 9007199254740992] =
      [4,
       3602879701896397 / 4503599627370496,
       2001599834386887 / 4503599627370496,
       -3275345183542179 / 9007199254740992,
       -2573485501354569 / 4503599627370496,
       -6004799503160661 / 4503599627370496] := by
  norm_num [sortDescending, List.insertionSort, List.orderedInsert]

/-- C9 fails: with six workers of one iteration each, in binary64 and with left-to-right
reduction (a valid order), the policy backend under `seq` returns
`0x1.7cef14c2c0893p+1`, while the left-to-right sum of the descending-sorted results,
which the async backend returns, is `0x1.7cef14c2c0894p+1`. -/
theorem policy_backend_not_sorted :
    (inOrder .seq 6).Valid (6 + 1) ∧
    CalculatePiMultithreadedWithPolicy .terminated inOrder binary64 6 6 .seq =
      .value (6701460224739475 / 2251799813685248) ∧
    aggregate (addDouble binary64) 0 ((List.range 6).map (workerResult binary64 (6 / 6))) =
      1675365056184869 / 562949953421312 ∧
    CalculatePiMultithreadedWithAsync .terminated binary64 6 6 =
      .value (1675365056184869 / 562949953421312) ∧
    CalculatePiMultithreadedWithPolicy .terminated inOrder binary64 6 6 .seq ≠
      .value (aggregate (addDouble binary64) 0
        ((List.range 6).map (workerResult binary64 (6 / 6)))) := by
  have hpol : CalculatePiMultithreadedWithPolicy .terminated inOrder binary64 6 6 .seq =
      .value (6701460224739475 / 2251799813685248) := by
    rw [policy_inOrder _ _ _ _ (by decide), workerResults_binary64, accumulate_in_order]
  have hagg : aggregate (addDouble binary64) 0
      ((List.range 6).map (workerResult binary64 (6 / 6))) =
      1675365056184869 / 562949953421312 := by
    rw [workerResults_binary64, aggregate, sortDescending_binary64, accumulate_sorted]
  refine ⟨by decide, hpol, hagg, ?_, ?_⟩
  · rw [CalculatePiMultithreadedWithAsync_eq _ _ _ (by decide), hagg]
  · rw [hpol, hagg]
    intro h
    injection h with h
    norm_num at h

/-- C9 amended. The policy backends do not sort: they reduce `0.0` and the workers'
results in the order their policy chooses (left to right, in worker order, under the
left-to-right scheduler). For `W ≥ 1`, when the addition of doubles is associative and
commutative and the reduction order is valid, their result is the left-to-right sum from
`0.0` of the descending-sorted results, the result of the thread, future/promise and async
backends. -/
theorem policy_backends_reduce (ub : Outcome) (sched : Scheduler) (rnd : ℚ → ℚ) (N W : Nat)
    (policy : ExecutionPolicy) (hW : 1 ≤ W) :
    CalculatePiMultithreadedWithPolicy ub sched rnd N W policy =
      .value (transform_reduce sched policy (addDouble rnd) 0
        ((List.range W).map (workerResult rnd (N / W)))) ∧
    CalculatePiMultithreadedWithSTL ub sched rnd N W =
      .value (transform_reduce sched .par (addDouble rnd) 0
        ((List.range W).map (workerResult rnd (N / W)))) ∧
    CalculatePiMultithreadedWithPolicy ub inOrder rnd N W policy =
      .value (accumulate (addDouble rnd) 0 ((List.range W).map (workerResult rnd (N / W)))) ∧
    ((∀ a b c, addDouble rnd (addDouble rnd a b) c = addDouble rnd a (addDouble rnd b c)) →
      (∀ a b, addDouble rnd a b = addDouble rnd b a) →
      (∀ p, (sched p W).Valid (W + 1)) →
      CalculatePiMultithreadedWithPolicy ub sched rnd N W policy =
        .value (aggregate (addDouble rnd) 0 ((List.range W).map (workerResult rnd (N / W)))) ∧
      CalculatePiMultithreadedWithSTL ub sched rnd N W =
        .value (aggregate (addDouble rnd) 0 ((List.range W).map (workerResult rnd (N / W)))) ∧
      CalculatePiMultithreadedWithPolicy ub sched rnd N W policy =
        CalculatePiMultithreaded ub rnd N W ∧
      CalculatePiMultithreadedWithPolicy ub sched rnd N W policy =
        CalculatePiMultithreadedWithFutureAndPromises ub rnd N W ∧
      CalculatePiMultithreadedWithPolicy ub sched rnd N W policy =
        CalculatePiMultithreadedWithAsync ub rnd N W) := by
  have hW0 : W ≠ 0 := by omega
  refine ⟨?_, ?_, policy_inOrder rnd N W policy hW0, ?_⟩
  · rw [CalculatePiMultithreadedWithPolicy, if_neg hW0]
  · rw [CalculatePiMultithreadedWithSTL, if_neg hW0]
  · intro hassoc hcomm hsched
    have hpol := fun p => @policy_eq_aggregate ub sched rnd N W p hW0 hassoc hcomm (hsched p)
    refine ⟨hpol policy, ?_, ?_, ?_, ?_⟩
    · rw [CalculatePiMultithreadedWithSTL_eq_policy]
      exact hpol .par
    · rw [hpol policy, CalculatePiMultithreaded_eq _ _ _ hW0]
    · rw [hpol policy, CalculatePiMultithreadedWithFutureAndPromises_eq _ _ _ hW0]
    · rw [hpol policy, CalculatePiMultithreadedWithAsync_eq _ _ _ hW0]

/-- C9 amended at `N = 3`, `W = 3` in exact arithmetic, where the results `4, -4/3, 4/5`
are not in descending order: the policy backend agrees with the sorting backends. -/
theorem policy_backends_reduce_witness :
    CalculatePiMultithreadedWithPolicy .terminated inOrder exactDouble 3 3 .unseq =
      .value (aggregate (addDouble exactDouble) 0
        ((List.range 3).map (workerResult exactDouble (3 / 3)))) ∧
    CalculatePiMultithreadedWithPolicy .terminated inOrder exactDouble 3 3 .unseq =
      CalculatePiMultithreadedWithAsync .terminated exactDouble 3 3 := by
  have h := (policy_backends_reduce .terminated inOrder exactDouble 3 3 .unseq (by decide)).2.2.2
    addDouble_exact_assoc addDouble_exact_comm (fun p => by cases p <;> decide)
  exact ⟨h.1, h.2.2.2.2⟩


/-! ## A workload that raises -/

/-- Collecting futures that all hold a value yields the values in order. -/
theorem collect_values (l : List ℚ) (i : Nat) (sums : List ℚ) :
    collect (l.map some) i sums = .ok (sums ++ l) := by
  induction l generalizing i sums with
  | nil => simp [collect]
  | cons x l ih => simp [collect, ih]

/-- Collecting stops at the first future that holds an exception. -/
theorem collect_raises (l : List (Option ℚ)) :
    ∀ (i : Nat) (sums : List ℚ) (n : Nat), l[n]? = some none →
      ∃ j, j ≤ n ∧ l[j]? = some none ∧ (∀ k, k < j → l[k]? ≠ some none) ∧
        collect l i sums = .error (i + j) := by
  induction l with
  | nil => intro i sums n h; simp at h
  | cons x l ih =>
    intro i sums n h
    cases x with
    | none => exact ⟨0, Nat.zero_le _, by simp, fun k hk => absurd hk (Nat.not_lt_zero k), rfl⟩
    | some v =>
      cases n with
      | zero => simp at h
      | succ n =>
        rw [List.getElem?_cons_succ] at h
        obtain ⟨j, hj, hnone, hfirst, hcol⟩ := ih (i + 1) (sums ++ [v]) n h
        refine ⟨j + 1, by omega, by rw [List.getElem?_cons_succ]; exact hnone, ?_, ?_⟩
        · intro k hk
          cases k with
          | zero => simp
          | succ k =>
            rw [List.getElem?_cons_succ]
            exact hfirst k (by omega)
        · rw [collect, hcol]
          congr 1
          omega

/-- The attempts of the workers, read at position `i < W`. -/
theorem workerAttempts_getElem (work : Workload) (chunk W i : Nat) (hi : i < W) :
    ((List.range W).map (workerAttempt work chunk))[i]? = some (workerAttempt work chunk i) := by
  simp [List.getElem?_map, List.getElem?_range hi]

/-- With the workload of the program the attempts are the results. -/
theorem workerAttempts_series (rnd : ℚ → ℚ) (chunk W : Nat) :
    (List.range W).map (workerAttempt (seriesWorkload rnd) chunk) =
      ((List.range W).map (workerResult rnd chunk)).map some := by
  simp [workerAttempt, seriesWorkload, workerResult]

/-- The instrumented async backend at the workload of the program is the async backend. -/
theorem asyncInstrumented_series {ub : Outcome} (rnd : ℚ → ℚ) (N W : Nat) :
    asyncInstrumented ub (seriesWorkload rnd) rnd N W = CalculatePiMultithreadedWithAsync ub rnd N W := by
  by_cases hW : W = 0
  · subst hW; rfl
  · rw [CalculatePiMultithreadedWithAsync_eq _ _ _ hW, asyncInstrumented, if_neg hW]
    simp only [workerAttempts_series, collect_values, List.nil_append]

/-- The instrumented future/promise backend at the workload of the program is the
future/promise backend. -/
theorem futureAndPromisesInstrumented_series {ub : Outcome} (rnd : ℚ → ℚ) (N W : Nat) :
    futureAndPromisesInstrumented ub (seriesWorkload rnd) rnd N W =
      CalculatePiMultithreadedWithFutureAndPromises ub rnd N W := by
  by_cases hW : W = 0
  · subst hW; rfl
  · rw [CalculatePiMultithreadedWithFutureAndPromises_eq _ _ _ hW, futureAndPromisesInstrumented,
      if_neg hW]
    simp only [workerAttempts_series, collect_values, List.nil_append]
    rw [if_neg]
    simp

/-- C8 fails for the future/promise backend: with a workload that always raises, `N = 4`
and `W = 2`, the run is terminated; no failure is observed when a result is collected. -/
theorem promise_backend_terminates :
    futureAndPromisesInstrumented .terminated (fun _ _ => none) exactDouble 4 2 = .terminated ∧
    ∀ i, futureAndPromisesInstrumented .terminated (fun _ _ => none) exactDouble 4 2 ≠ .raised i := by
  have h : futureAndPromisesInstrumented .terminated (fun _ _ => none) exactDouble 4 2 = .terminated := by
    simp [futureAndPromisesInstrumented, workerAttempt, List.range_succ]
  rw [h]
  exact ⟨rfl, fun i hi => by injection hi⟩

/-- C8 amended. Both instrumented backends are the program's backends when the workload is
`CalculatePi`. If the workload of partition `i < W` raises, then: the async backend ends
with the failure of the first raising partition `j ≤ i`, observed when the caller collects
the result of partition `j`; the future/promise backend ends with the termination of the
run, because the exception leaves the worker thread; neither returns a number. -/
theorem failure_outcome :
    (∀ (ub : Outcome) (rnd : ℚ → ℚ) (N W : Nat),
      asyncInstrumented ub (seriesWorkload rnd) rnd N W = CalculatePiMultithreadedWithAsync ub rnd N W ∧
      futureAndPromisesInstrumented ub (seriesWorkload rnd) rnd N W =
        CalculatePiMultithreadedWithFutureAndPromises ub rnd N W) ∧
    (∀ (ub : Outcome) (work : Workload) (rnd : ℚ → ℚ) (N W i : Nat), 1 ≤ W → i < W →
      workerAttempt work (N / W) i = none →
      (∃ j, j ≤ i ∧ workerAttempt work (N / W) j = none ∧
        (∀ k, k < j → workerAttempt work (N / W) k ≠ none) ∧
        asyncInstrumented ub work rnd N W = .raised j) ∧
      futureAndPromisesInstrumented ub work rnd N W = .terminated ∧
      (asyncInstrumented ub work rnd N W).isValue = false ∧
      (futureAndPromisesInstrumented ub work rnd N W).isValue = false) := by
  refine ⟨fun ub rnd N W => ⟨asyncInstrumented_series rnd N W,
    futureAndPromisesInstrumented_series rnd N W⟩, ?_⟩
  intro ub work rnd N W i hW hi hfail
  have hW0 : W ≠ 0 := by omega
  have hget : ((List.range W).map (workerAttempt work (N / W)))[i]? = some none := by
    rw [workerAttempts_getElem _ _ _ _ hi, hfail]
  obtain ⟨j, hj, hnone, hfirst, hcol⟩ := collect_raises _ 0 [] i hget
  have hjW : j < W := by omega
  rw [workerAttempts_getElem _ _ _ _ hjW] at hnone
  have hasync : asyncInstrumented ub work rnd N W = .raised j := by
    rw [asyncInstrumented, if_neg hW0]
    simp only [hcol, Nat.zero_add]
  have hprom : futureAndPromisesInstrumented ub work rnd N W = .terminated := by
    rw [futureAndPromisesInstrumented, if_neg hW0]
    simp only
    rw [if_pos]
    rw [List.any_eq_true]
    exact ⟨none, List.getElem?_mem hget, rfl⟩
  refine ⟨⟨j, hj, Option.some.inj hnone, ?_, hasync⟩, hprom, by rw [hasync]; rfl,
    by rw [hprom]; rfl⟩
  intro k hk hk2
  apply hfirst k hk
  rw [workerAttempts_getElem _ _ _ _ (by omega), hk2]

/-- C8 amended at `N = 4`, `W = 2` with a workload that raises on the range that starts at
2: the async backend reports the failure of partition 1, the future/promise backend ends
the run. -/
theorem failure_outcome_witness :
    workerAttempt (fun start _ => if start = 2 then none else some 1) (4 / 2) 1 = none ∧
    (∃ j, j ≤ 1 ∧
      asyncInstrumented .terminated (fun start _ => if start = 2 then none else some 1) exactDouble 4 2 =
        .raised j) ∧
    futureAndPromisesInstrumented .terminated (fun start _ => if start = 2 then none else some 1)
      exactDouble 4 2 = .terminated := by
  have hfail : workerAttempt (fun start _ => if start = 2 then none else some 1) (4 / 2) 1
      = none := by
    simp [workerAttempt, workerRange]
  have h := failure_outcome.2 .terminated (fun start _ => if start = 2 then none else some 1)
    exactDouble 4 2 1
    (by decide) (by decide) hfail
  obtain ⟨⟨j, hj, -, -, hasync⟩, hprom, -, -⟩ := h
  exact ⟨hfail, ⟨j, hj, hasync⟩, hprom⟩

end Calculate

namespace MonteCarlo

/-! ## Sample accounting -/

/-- The hit counter grows by at most one per draw. -/
theorem count_bounds (draw : Nat → vector2f) (l : List Nat) (init : Int) :
    init ≤ l.foldl (fun (local_in : Int) i =>
        if (draw i).x * (draw i).x + (draw i).y * (draw i).y < 1 then local_in + 1
        else local_in) init ∧
    l.foldl (fun (local_in : Int) i =>
        if (draw i).x * (draw i).x + (draw i).y * (draw i).y < 1 then local_in + 1
        else local_in) init ≤ init + l.length := by
  induction l generalizing init with
  | nil => simp
  | cons i l ih =>
    rw [List.foldl_cons, List.length_cons]
    split
    · have := ih (init + 1)
      push_cast
      omega
    · have := ih init
      push_cast
      omega

/-- `countPoints` reports `number` as `local_total`. -/
theorem countPoints_total (draw : Nat → vector2f) (number : Int) :
    (countPoints draw number).2 = number := rfl

/-- `countPoints` reports between 0 and `number` hits. -/
theorem countPoints_in (draw : Nat → vector2f) (number : Int) (h : 0 ≤ number) :
    0 ≤ (countPoints draw number).1 ∧ (countPoints draw number).1 ≤ number := by
  have hb := count_bounds draw (List.range number.toNat) 0
  rw [List.length_range] at hb
  have hn : (number.toNat : Int) = number := Int.toNat_of_nonneg h
  simp only [countPoints]
  omega

/-- The globals after the first `k` workers have been added. -/
theorem add_workers (f : Nat → Int × Int) (per_thread : Int) (n : Nat) (g : Globals)
    (htotal : ∀ i, i < n → (f i).2 = per_thread)
    (hin : ∀ i, i < n → 0 ≤ (f i).1 ∧ (f i).1 ≤ per_thread) :
    ∀ k, k ≤ n →
      ((List.range k).foldl (fun (g : Globals) i =>
        { in_ := g.in_ + (((List.range n).map f).map Prod.fst).getD i 0,
          total := g.total + (((List.range n).map f).map Prod.snd).getD i 0 }) g).total
        = g.total + k * per_thread ∧
      g.in_ ≤ ((List.range k).foldl (fun (g : Globals) i =>
        { in_ := g.in_ + (((List.range n).map f).map Prod.fst).getD i 0,
          total := g.total + (((List.range n).map f).map Prod.snd).getD i 0 }) g).in_ ∧
      ((List.range k).foldl (fun (g : Globals) i =>
        { in_ := g.in_ + (((List.range n).map f).map Prod.fst).getD i 0,
          total := g.total + (((List.range n).map f).map Prod.snd).getD i 0 }) g).in_
        ≤ g.in_ + k * per_thread := by
  intro k
  induction k with
  | zero => intro _; simp
  | succ k ih =>
    intro hk
    have hkn : k < n := by omega
    obtain ⟨h1, h2, h3⟩ := ih (by omega)
    have ht := htotal k hkn
    have hi := hin k hkn
    have hfst : (((List.range n).map f).map Prod.fst).getD k 0 = (f k).1 := by
      simp [List.getD_eq_getElem?_getD, List.getElem?_map, List.getElem?_range hkn]
    have hsnd : (((List.range n).map f).map Prod.snd).getD k 0 = (f k).2 := by
      simp [List.getD_eq_getElem?_getD, List.getElem?_map, List.getElem?_range hkn]
    rw [List.range_succ, List.foldl_append]
    simp only [List.foldl_cons, List.foldl_nil, hfst, hsnd]
    push_cast
    refine ⟨?_, ?_, ?_⟩
    · rw [h1, ht]; ring
    · omega
    · have : ((k : Int) + 1) * per_thread = k * per_thread + per_thread := by ring
      omega

/-- What `multiThreadedExecution` adds to the globals, for a positive worker count. -/
theorem multiThreadedExecution_adds (draws : Nat → Nat → vector2f) (W : Int) (g : Globals)
    (hW : 1 ≤ W) :
    ∃ r, multiThreadedExecution draws W g = some r ∧
      r.total = g.total + W * (100000000 / W) ∧
      g.in_ ≤ r.in_ ∧ r.in_ ≤ g.in_ + W * (100000000 / W) := by
  have hper : Int.tdiv 100000000 W = 100000000 / W :=
    Int.tdiv_eq_ediv (by norm_num) (by omega)
  have hnonneg : (0 : Int) ≤ 100000000 / W := Int.ediv_nonneg (by norm_num) (by omega)
  have hcast : (W.toNat : Int) = W := Int.toNat_of_nonneg (by omega)
  have h := add_workers (fun i => countPoints (draws i) (100000000 / W)) (100000000 / W)
    W.toNat g (fun i _ => rfl) (fun i _ => countPoints_in _ _ hnonneg) W.toNat le_rfl
  rw [hcast] at h
  refine ⟨_, ?_, h⟩
  rw [multiThreadedExecution, if_neg (by omega), hper]

/-- C6 fails: with three workers the local totals add `99999999` to `total`, not
`100000000`. -/
theorem three_workers_lose_a_sample :
    (multiThreadedExecution (fun _ _ => ⟨0, 0⟩) 3 ⟨0, 0⟩).map (fun r => r.total)
      = some 99999999 ∧
    (99999999 : Int) ≠ 100000000 := by
  obtain ⟨r, hr, htotal, -, -⟩ :=
    multiThreadedExecution_adds (fun _ _ => ⟨0, 0⟩) 3 ⟨0, 0⟩ (by decide)
  rw [hr, Option.map_some', htotal]
  exact ⟨by norm_num, by decide⟩

/-- Run from `main`, the counters stay within the range of a 32-bit `int`. -/
theorem main_counters_fit (draw : Nat → vector2f) (draws : Nat → Nat → vector2f) (W : Int)
    (hW : 1 ≤ W) :
    ∃ r, main draw draws W = some r ∧ 0 ≤ r.in_ ∧ r.in_ ≤ r.total ∧ r.total < 2 ^ 31 := by
  obtain ⟨r, hr, htotal, hin1, hin2⟩ :=
    multiThreadedExecution_adds draws W (singleThreadedExecution draw { in_ := 0, total := 0 }) hW
  have hs := countPoints_in draw 100000000 (by norm_num)
  have hdm := Int.emod_add_ediv 100000000 W
  have hmod : (0 : Int) ≤ 100000000 % W := Int.emod_nonneg _ (by omega)
  have h1 : (singleThreadedExecution draw { in_ := 0, total := 0 }).total = 100000000 := by
    simp only [singleThreadedExecution, countPoints_total]
  have h2 : (singleThreadedExecution draw { in_ := 0, total := 0 }).in_ =
      (countPoints draw 100000000).1 := by
    simp only [singleThreadedExecution]
  rw [h1] at htotal
  rw [h2] at hin1 hin2
  refine ⟨r, hr, by omega, by omega, ?_⟩
  have : (2 : Int) ^ 31 = 2147483648 := by norm_num
  omega

/-- C6 amended. For every worker count `W ≥ 1`, the run ends, every worker reports
`local_total = 100000000 / W`, and the local totals added into `total` sum to
`W * (100000000 / W) = 100000000 - 100000000 mod W`; this is at most `100000000`, and is
`100000000` exactly when `W` divides `100000000`. The hits added into `in` are between 0
and that sum. -/
theorem sample_accounting (draws : Nat → Nat → vector2f) (W : Int) (g : Globals) (hW : 1 ≤ W) :
    ∃ r, multiThreadedExecution draws W g = some r ∧
      (∀ i, (countPoints (draws i) (Int.tdiv 100000000 W)).2 = 100000000 / W) ∧
      r.total - g.total = W * (100000000 / W) ∧
      r.total - g.total = 100000000 - 100000000 % W ∧
      r.total - g.total ≤ 100000000 ∧
      (r.total - g.total = 100000000 ↔ W ∣ 100000000) ∧
      0 ≤ r.in_ - g.in_ ∧ r.in_ - g.in_ ≤ r.total - g.total := by
  obtain ⟨r, hr, htotal, hin1, hin2⟩ := multiThreadedExecution_adds draws W g hW
  have hdm := Int.emod_add_ediv 100000000 W
  have hmod : (0 : Int) ≤ 100000000 % W := Int.emod_nonneg _ (by omega)
  have hper : Int.tdiv 100000000 W = 100000000 / W :=
    Int.tdiv_eq_ediv (by norm_num) (by omega)
  refine ⟨r, hr, fun i => by rw [countPoints_total, hper], by omega, by omega, by omega, ?_,
    by omega, by omega⟩
  rw [Int.dvd_iff_emod_eq_zero]
  constructor <;> intro h <;> omega

/-- C6 amended at `W = 8`, which divides `100000000`, from the counters `in = 5`,
`total = 100000000`. -/
theorem sample_accounting_witness :
    ∃ r, multiThreadedExecution (fun _ _ => ⟨0, 0⟩) 8 ⟨5, 100000000⟩ = some r ∧
      r.total - 100000000 = 100000000 ∧ r.in_ - 5 ≤ r.total - 100000000 := by
  obtain ⟨r, hr, -, h1, -, -, -, -, h2⟩ :=
    sample_accounting (fun _ _ => ⟨0, 0⟩) 8 ⟨5, 100000000⟩ (by decide)
  exact ⟨r, hr, by rw [h1]; norm_num, h2⟩

end MonteCarlo
